import Mathlib

/-!
# gitstagingcron: the commit-transfer cycle of `main.go`

A shallow embedding of `runCommand`, `transferCommit` and the delay computation
of `main`.  Go strings are sequences of bytes; they are modelled as lists of
characters (`Str`), one character per byte.  The external world (the `git`
subprocesses, the clock, I/O failures of the ledger file) is an oracle over an
abstract world state; the ledger file lives in an explicit file-system map.
External commands are assumed not to touch the files the process itself reads
and writes.
-/

namespace GitStagingCron

/-- A Go string. -/
abbrev Str := List Char

/-! ## Library functions used by the program -/

/-- Go `strings.Contains(s, substr)`: some suffix of `s` starts with `substr`. -/
def stringsContains {α : Type} [DecidableEq α] (s substr : List α) : Bool :=
  s.tails.any (fun t => substr.isPrefixOf t)

/-- Go `strings.Split(s, sep)` for a one-byte separator: the pieces of `s`
between the occurrences of `sep`; always at least one piece. -/
def stringsSplit {α : Type} [DecidableEq α] (sep : α) : List α → List (List α)
  | [] => [[]]
  | c :: cs =>
    if c = sep then [] :: stringsSplit sep cs
    else
      match stringsSplit sep cs with
      | [] => [[c]]
      | piece :: pieces => (c :: piece) :: pieces

/-- Go `strings.Join(elems, sep)`. -/
def stringsJoin {α : Type} (elems : List (List α)) (sep : List α) : List α :=
  sep.intercalate elems

/-! ## The reversal loop of `transferCommit` (lines 53-55) -/

/-- The parallel assignment `a[i], a[j] = a[j], a[i]`.  Both indices are in
range wherever the loop calls it; out of range the slice is left alone. -/
def swapAt {α : Type} (a : List α) (i j : Nat) : List α :=
  match a[i]?, a[j]? with
  | some x, some y => (a.set i y).set j x
  | _, _ => a

/-- The loop `for i, j := 0, len(a)-1; i < j; i, j = i+1, j-1 { swap }` from the
state `(i, j)` on, for at most `fuel` iterations.  Inside the loop `0 ≤ i < j`,
so `j - 1` never goes below zero and natural-number indices agree with Go's
`int`. -/
def reverseLoop {α : Type} : Nat → List α → Nat → Nat → List α
  | 0, a, _, _ => a
  | fuel + 1, a, i, j =>
    if i < j then reverseLoop fuel (swapAt a i j) (i + 1) (j - 1) else a

/-- Lines 53-55: `i, j := 0, len(a)-1`, then the loop; `len(a)` iterations are
more than the loop ever makes.  For an empty slice Go starts at `j = -1` and
does not enter the loop; neither does `j = 0`. -/
def reverseInPlace {α : Type} (a : List α) : List α :=
  reverseLoop a.length a 0 (a.length - 1)

/-! ## The external world and the observable trace -/

/-- What `cmd.Run()` leaves behind: the captured standard output, the captured
standard error and the error it returned, if any. -/
structure CmdResult where
  stdout : Str
  stderr : Str
  err : Option Str
deriving DecidableEq, Repr

/-- The file operations of `transferCommit`. -/
inductive FileOp where
  | read
  | create
  | openAppend
  | write
deriving DecidableEq, Repr

/-- The environment of the process, over an abstract world state `σ`:
`exec w dir env name arg` runs a subprocess and yields its result and the next
world; `now w` is `time.Now().Format(time.RFC3339)`; `ioErr w op path` is the
error, other than "file does not exist", that the file operation hits. -/
structure Sys (σ : Type) where
  exec : σ → Str → List Str → Str → List Str → CmdResult × σ
  now : σ → Str
  ioErr : σ → FileOp → Str → Option Str

/-- What the process does, in order.  `diag` is a line printed by `runCommand`,
`println` a line printed by `transferCommit`; both go to standard output. -/
inductive Event where
  | diag (text : Str)
  | exec (dir : Str) (env : List Str) (name : Str) (arg : List Str) (res : CmdResult)
  | println (text : Str)
  | readFile (path : Str)
  | create (path : Str)
  | openAppend (path : Str)
  | write (path : Str) (data : Str)
  | fatal (msg : Str)
deriving DecidableEq, Repr

/-- The state of the process and its surroundings: the external world, the
files of the working directory (`none`: the file does not exist) and the
events so far. -/
structure State (σ : Type) where
  world : σ
  files : Str → Option Str
  trace : List Event

/-- How a call ends: it returns, or the process exits (`os.Exit`, `log.Fatal`). -/
inductive Outcome where
  | returned
  | exited (code : Nat)
deriving DecidableEq, Repr

/-- Append one event to the trace. -/
def State.emit {σ : Type} (s : State σ) (e : Event) : State σ :=
  { s with trace := s.trace ++ [e] }

/-- Replace the content of one file. -/
def State.setFile {σ : Type} (s : State σ) (path : Str) (content : Str) : State σ :=
  { s with files := fun p => if p = path then some content else s.files p }

/-! ## `runCommand` (lines 17-35) -/

/-- `runCommand(dir, env, name, arg...)`: prints the command line, runs the
command, prints the error and the captured standard error when `cmd.Run()`
fails, and returns the captured standard output whatever happened. -/
def runCommand {σ : Type} (sys : Sys σ) (dir : Str) (env : List Str) (name : Str)
    (arg : List Str) (s : State σ) : Str × State σ :=
  let argString := stringsJoin arg " ".toList
  let s := s.emit (.diag (name ++ " ".toList ++ argString ++ "\n".toList))
  let r := sys.exec s.world dir env name arg
  let s : State σ := { s with world := r.2, trace := s.trace ++ [.exec dir env name arg r.1] }
  match r.1.err with
  | some e =>
    (r.1.stdout,
      (s.emit (.diag (e ++ "\n".toList))).emit
        (.diag ("Error: ".toList ++ r.1.stderr ++ "\n".toList)))
  | none => (r.1.stdout, s)

/-! ## File operations on the ledger -/

/-- The expression `stagingBranch + "_transferred_commits.txt"`. -/
def ledgerPath (stagingBranch : Str) : Str :=
  stagingBranch ++ "_transferred_commits.txt".toList

/-- The result of `ioutil.ReadFile`. -/
inductive ReadResult where
  | content (data : Str)
  | notExist
  | failed (msg : Str)
deriving DecidableEq, Repr

/-- Go `ioutil.ReadFile(path)`. -/
def readFile {σ : Type} (sys : Sys σ) (path : Str) (s : State σ) : ReadResult × State σ :=
  let s := s.emit (.readFile path)
  match sys.ioErr s.world .read path with
  | some e => (.failed e, s)
  | none =>
    match s.files path with
    | none => (.notExist, s)
    | some data => (.content data, s)

/-- Go `os.Create(path)`: creates or truncates the file; the error, if any. -/
def osCreate {σ : Type} (sys : Sys σ) (path : Str) (s : State σ) : Option Str × State σ :=
  let s := s.emit (.create path)
  match sys.ioErr s.world .create path with
  | some e => (some e, s)
  | none => (none, s.setFile path [])

/-- Go `os.OpenFile(path, O_APPEND|O_CREATE|O_WRONLY, 0644)`: creates the file
when it is absent; the error, if any. -/
def osOpenAppend {σ : Type} (sys : Sys σ) (path : Str) (s : State σ) : Option Str × State σ :=
  let s := s.emit (.openAppend path)
  match sys.ioErr s.world .openAppend path with
  | some e => (some e, s)
  | none =>
    match s.files path with
    | none => (none, s.setFile path [])
    | some _ => (none, s)

/-- `f.WriteString(data)` on a file opened for append: the data goes to the end
of the file; the error, if any.  A write that fails is taken to leave the file
as it was. -/
def writeString {σ : Type} (sys : Sys σ) (path : Str) (data : Str) (s : State σ) :
    Option Str × State σ :=
  let s := s.emit (.write path data)
  match sys.ioErr s.world .write path with
  | some e => (some e, s)
  | none => (none, s.setFile path ((s.files path).getD [] ++ data))

/-! ## `transferCommit` (lines 37-119) -/

/-- Lines 40-45: fetch, checkout of the work branch, and the `git log` of the
range `stagingBranch..workBranch`, whose output is returned. -/
def syncAndLog {σ : Type} (sys : Sys σ) (repoPath workBranch stagingBranch : Str)
    (s : State σ) : Str × State σ :=
  let s := (runCommand sys repoPath [] "git".toList ["fetch".toList] s).2
  let s := (runCommand sys repoPath [] "git".toList ["checkout".toList, workBranch] s).2
  runCommand sys repoPath [] "git".toList
    ["log".toList, "--pretty=format:%H".toList, stagingBranch ++ "..".toList ++ workBranch] s

/-- Lines 58-74: read the ledger; when it does not exist create it and take its
content to be empty; any other error is fatal (`none`). -/
def loadLedger {σ : Type} (sys : Sys σ) (stagingBranch : Str) (s : State σ) :
    Option Str × State σ :=
  match readFile sys (ledgerPath stagingBranch) s with
  | (.content data, s) => (some data, s)
  | (.notExist, s) =>
    match osCreate sys (ledgerPath stagingBranch) s with
    | (some e, s) => (none, s.emit (.fatal e))
    | (none, s) => (some [], s)
  | (.failed e, s) => (none, s.emit (.fatal e))

/-- Lines 86-117: the body of the loop for a commit that is not skipped, up to
and including the `break`. -/
def applyCommit {σ : Type} (sys : Sys σ) (repoPath workBranch stagingBranch commitHash : Str)
    (s : State σ) : Outcome × State σ :=
  let s := (runCommand sys repoPath [] "git".toList ["checkout".toList, stagingBranch] s).2
  let r := runCommand sys repoPath [] "git".toList
    ["cherry-pick".toList, "-Xtheirs".toList, commitHash] s
  let result := r.1
  let s := r.2
  if stringsContains result "error".toList then
    (.exited 1, s.emit (.println "Cherry-pick failed, please resolve conflicts manually.\n".toList))
  else
    let currentDate := sys.now s.world
    let s := (runCommand sys repoPath [] "git".toList
      ["commit".toList, "--amend".toList, "--no-edit".toList, "--date".toList, currentDate] s).2
    let s := (runCommand sys repoPath [] "git".toList
      ["push".toList, "--set-upstream".toList, "origin".toList, stagingBranch, ":".toList,
        stagingBranch] s).2
    let s := (runCommand sys repoPath [] "git".toList ["checkout".toList, workBranch] s).2
    let s := s.emit (.println ("Transferred commit: ".toList ++ commitHash ++ "\n".toList))
    match osOpenAppend sys (ledgerPath stagingBranch) s with
    | (some e, s) => (.exited 1, s.emit (.fatal e))
    | (none, s) =>
      match writeString sys (ledgerPath stagingBranch) (commitHash ++ "\n".toList) s with
      | (some e, s) => (.exited 1, s.emit (.fatal e))
      | (none, s) => (.returned, s)

/-- Lines 76-118: the `range` loop over the backlog. -/
def transferLoop {σ : Type} (sys : Sys σ) (repoPath workBranch stagingBranch : Str)
    (transferredCommitsStr : Str) : List Str → State σ → Outcome × State σ
  | [], s => (.returned, s)
  | commitHash :: rest, s =>
    if stringsContains transferredCommitsStr commitHash then
      transferLoop sys repoPath workBranch stagingBranch transferredCommitsStr rest
        (s.emit (.println
          ("Skipping previously transferred commit: ".toList ++ commitHash ++ "\n".toList)))
    else
      applyCommit sys repoPath workBranch stagingBranch commitHash s

/-- `transferCommit(repoPath, workBranch, stagingBranch)`. -/
def transferCommit {σ : Type} (sys : Sys σ) (repoPath workBranch stagingBranch : Str)
    (s : State σ) : Outcome × State σ :=
  let r := syncAndLog sys repoPath workBranch stagingBranch s
  let commitHashesStr := r.1
  let s := r.2
  let commitHashesArr := stringsSplit '\n' commitHashesStr
  if commitHashesArr.length = 0 ∨ commitHashesArr.head? = some [] then
    (.returned, s.emit (.println "No new commits to transfer.\n".toList))
  else
    let commitHashesArr := reverseInPlace commitHashesArr
    match loadLedger sys stagingBranch s with
    | (none, s) => (.exited 1, s)
    | (some transferredCommitsStr, s) =>
      transferLoop sys repoPath workBranch stagingBranch transferredCommitsStr commitHashesArr s

/-- Consecutive invocations of `transferCommit`, as the loop of `main` makes
them (lines 135-143, the sleep left out): the next one starts when the previous
one returned; an exit ends the process. -/
def invocations {σ : Type} (sys : Sys σ) (repoPath workBranch stagingBranch : Str) :
    Nat → State σ → Outcome × State σ
  | 0, s => (.returned, s)
  | n + 1, s =>
    match transferCommit sys repoPath workBranch stagingBranch s with
    | (.returned, s) => invocations sys repoPath workBranch stagingBranch n s
    | (.exited code, s) => (.exited code, s)

/-! ## The delay computation of `main` (line 140) -/

/-- Two's-complement wrap-around of a 64-bit signed integer. -/
def wrap64 (x : Int) : Int :=
  (x + 2 ^ 63) % 2 ^ 64 - 2 ^ 63

/-- Go `time.Minute`, in nanoseconds. -/
def Minute : Int := 60000000000

/-- Go `rand.Intn(n)`: panics (`none`) when `n <= 0`, else a value in `[0, n)`,
here the generator's raw draw reduced modulo `n`. -/
def randIntn (raw : Nat) (n : Int) : Option Int :=
  if n ≤ 0 then none else some ((raw : Int) % n)

/-- Line 140: `time.Minute * time.Duration(rand.Intn(maxDelay-minDelay)+minDelay)`,
in nanoseconds; `int` and `time.Duration` are 64-bit. -/
def sleepDuration (minDelay maxDelay : Int) (raw : Nat) : Option Int :=
  match randIntn raw (wrap64 (maxDelay - minDelay)) with
  | none => none
  | some r => some (wrap64 (Minute * wrap64 (r + minDelay)))

/-! ## Observations on a trace -/

/-- The events other than the diagnostic lines of `runCommand`. -/
def actions (t : List Event) : List Event :=
  t.filter (fun e => match e with | .diag _ => false | _ => true)

/-- The commands run, each as `name :: arg`, in order. -/
def commands (t : List Event) : List (List Str) :=
  t.filterMap (fun e => match e with | .exec _ _ name arg _ => some (name :: arg) | _ => none)

/-- The commands run together with their results. -/
def execs (t : List Event) : List (List Str × CmdResult) :=
  t.filterMap (fun e =>
    match e with | .exec _ _ name arg res => some (name :: arg, res) | _ => none)

/-- The lines printed by `transferCommit` itself. -/
def printed (t : List Event) : List Str :=
  t.filterMap (fun e => match e with | .println text => some text | _ => none)

/-- The file operations attempted. -/
def fileOps (t : List Event) : List Event :=
  t.filter (fun e =>
    match e with
    | .readFile _ => true
    | .create _ => true
    | .openAppend _ => true
    | .write _ _ => true
    | _ => false)

/-- The commits for which `git cherry-pick -Xtheirs` was run, in order. -/
def cherryPicked (t : List Event) : List Str :=
  (commands t).filterMap (fun c =>
    match c with
    | [g, cp, x, h] =>
      if g = "git".toList ∧ cp = "cherry-pick".toList ∧ x = "-Xtheirs".toList then some h
      else none
    | _ => none)

/-- A `git checkout` command. -/
def isCheckout (c : List Str) : Bool :=
  c.take 2 = ["git".toList, "checkout".toList]

/-- A `git cherry-pick` command. -/
def isCherryPick (c : List Str) : Bool :=
  c.take 2 = ["git".toList, "cherry-pick".toList]

/-- A `git commit --amend` command. -/
def isAmend (c : List Str) : Bool :=
  c.take 3 = ["git".toList, "commit".toList, "--amend".toList]

/-- A `git push` command. -/
def isPush (c : List Str) : Bool :=
  c.take 2 = ["git".toList, "push".toList]

/-- The command lines of lines 40-45: fetch, checkout of the work branch, log of
the range `stagingBranch..workBranch`. -/
def syncCommands (workBranch stagingBranch : Str) : List (List Str) :=
  [["git".toList, "fetch".toList],
   ["git".toList, "checkout".toList, workBranch],
   ["git".toList, "log".toList, "--pretty=format:%H".toList,
     stagingBranch ++ "..".toList ++ workBranch]]

/-- A `log.Fatal` event. -/
def isFatal : Event → Bool
  | .fatal _ => true
  | _ => false

/-- The ledger content as a cycle sees it: empty when the file does not exist. -/
def ledgerContent (files : Str → Option Str) (stagingBranch : Str) : Str :=
  (files (ledgerPath stagingBranch)).getD []

/-- The oldest-first backlog of a cycle whose `git log` printed `commitHashesStr`:
the lines of the output (line 46), reversed by the loop of lines 53-55. -/
def backlog (commitHashesStr : Str) : List Str :=
  reverseInPlace (stringsSplit '\n' commitHashesStr)

/-- The text of ledger entries: each identifier followed by a newline. -/
def ledgerLines : List Str → Str
  | [] => []
  | h :: rest => h ++ "\n".toList ++ ledgerLines rest

/-- The last `git checkout` command of a trace, with its result. -/
def lastCheckout (t : List Event) : Option (List Str × CmdResult) :=
  ((execs t).filter (fun cr => isCheckout cr.1)).getLast?

/-- The skip report for one identifier (line 79). -/
def skipLine (commitHash : Str) : Str :=
  "Skipping previously transferred commit: ".toList ++ commitHash ++ "\n".toList

/-! ## The events of each phase of a cycle -/

/-- A `git` command run in the repository with no extra environment. -/
def evGit (repoPath : Str) (arg : List Str) (res : CmdResult) : Event :=
  .exec repoPath [] "git".toList arg res

/-- The events of lines 40-45. -/
def syncActions (repoPath workBranch stagingBranch : Str) (r1 r2 r3 : CmdResult) : List Event :=
  [.exec repoPath [] "git".toList ["fetch".toList] r1,
   .exec repoPath [] "git".toList ["checkout".toList, workBranch] r2,
   .exec repoPath [] "git".toList
     ["log".toList, "--pretty=format:%H".toList, stagingBranch ++ "..".toList ++ workBranch] r3]

/-- What lines 58-74 do to the ledger file: its content `before`, the content
handed to the loop (`res`, `none` after a fatal error), its content `after`, and
the events. -/
def LoadFacts {σ : Type} (sys : Sys σ) (stagingBranch : Str) (before res after : Option Str)
    (acts : List Event) : Prop :=
  (∃ c, before = some c ∧ res = some c ∧ after = some c ∧
      acts = [.readFile (ledgerPath stagingBranch)])
  ∨ (before = none ∧ res = some [] ∧ after = some [] ∧
      acts = [.readFile (ledgerPath stagingBranch), .create (ledgerPath stagingBranch)])
  ∨ (∃ w e, sys.ioErr w .read (ledgerPath stagingBranch) = some e ∧ res = none ∧
      after = before ∧ acts = [.readFile (ledgerPath stagingBranch), .fatal e])
  ∨ (∃ w e, sys.ioErr w .create (ledgerPath stagingBranch) = some e ∧ before = none ∧
      res = none ∧ after = none ∧
      acts = [.readFile (ledgerPath stagingBranch), .create (ledgerPath stagingBranch),
        .fatal e])

/-- The events of lines 86-108 when the cherry-pick output has no "error":
the five commands, the report and the opening of the ledger. -/
def applyPrefix (repoPath workBranch stagingBranch commitHash : Str)
    (r4 r5 r6 r7 r8 : CmdResult) (date : Str) : List Event :=
  [evGit repoPath ["checkout".toList, stagingBranch] r4,
   evGit repoPath ["cherry-pick".toList, "-Xtheirs".toList, commitHash] r5,
   evGit repoPath
     ["commit".toList, "--amend".toList, "--no-edit".toList, "--date".toList, date] r6,
   evGit repoPath
     ["push".toList, "--set-upstream".toList, "origin".toList, stagingBranch, ":".toList,
       stagingBranch] r7,
   evGit repoPath ["checkout".toList, workBranch] r8,
   .println ("Transferred commit: ".toList ++ commitHash ++ "\n".toList),
   .openAppend (ledgerPath stagingBranch)]

/-- What lines 86-117 do for the commit `commitHash` when the ledger holds `c0`:
how the call ends, the ledger content `after`, and the events. -/
def ApplyFacts {σ : Type} (sys : Sys σ) (repoPath workBranch stagingBranch commitHash : Str)
    (c0 : Str) (out : Outcome) (after : Option Str) (acts : List Event) : Prop :=
  ∃ r4 w5,
    (stringsContains
        (sys.exec w5 repoPath [] "git".toList
          ["cherry-pick".toList, "-Xtheirs".toList, commitHash]).1.stdout "error".toList = true ∧
      out = .exited 1 ∧ after = some c0 ∧
      acts = [evGit repoPath ["checkout".toList, stagingBranch] r4,
        evGit repoPath ["cherry-pick".toList, "-Xtheirs".toList, commitHash]
          (sys.exec w5 repoPath [] "git".toList
            ["cherry-pick".toList, "-Xtheirs".toList, commitHash]).1,
        .println "Cherry-pick failed, please resolve conflicts manually.\n".toList])
    ∨ (stringsContains
        (sys.exec w5 repoPath [] "git".toList
          ["cherry-pick".toList, "-Xtheirs".toList, commitHash]).1.stdout "error".toList = false ∧
      ∃ w6 r6 r7 r8,
        (∃ w e, sys.ioErr w .openAppend (ledgerPath stagingBranch) = some e ∧
          out = .exited 1 ∧ after = some c0 ∧
          acts = applyPrefix repoPath workBranch stagingBranch commitHash r4
            (sys.exec w5 repoPath [] "git".toList
              ["cherry-pick".toList, "-Xtheirs".toList, commitHash]).1 r6 r7 r8 (sys.now w6)
            ++ [.fatal e])
        ∨ (∃ w e, sys.ioErr w .write (ledgerPath stagingBranch) = some e ∧
          out = .exited 1 ∧ after = some c0 ∧
          acts = applyPrefix repoPath workBranch stagingBranch commitHash r4
            (sys.exec w5 repoPath [] "git".toList
              ["cherry-pick".toList, "-Xtheirs".toList, commitHash]).1 r6 r7 r8 (sys.now w6)
            ++ [.write (ledgerPath stagingBranch) (commitHash ++ "\n".toList), .fatal e])
        ∨ (out = .returned ∧ after = some (c0 ++ (commitHash ++ "\n".toList)) ∧
          acts = applyPrefix repoPath workBranch stagingBranch commitHash r4
            (sys.exec w5 repoPath [] "git".toList
              ["cherry-pick".toList, "-Xtheirs".toList, commitHash]).1 r6 r7 r8 (sys.now w6)
            ++ [.write (ledgerPath stagingBranch) (commitHash ++ "\n".toList)]))

/-- What the loop of lines 76-118 does on a backlog when the ledger holds `c`:
the leading identifiers contained in `c` are reported as skipped, and the first
one that is not, if any, goes through lines 86-117. -/
def LoopFacts {σ : Type} (sys : Sys σ) (repoPath workBranch stagingBranch c : Str)
    (backlog : List Str) (out : Outcome) (after : Option Str) (acts : List Event) : Prop :=
  ∃ acts2,
    acts = (backlog.takeWhile (fun h => stringsContains c h)).map
      (fun h => Event.println (skipLine h)) ++ acts2 ∧
    match backlog.dropWhile (fun h => stringsContains c h) with
    | [] => out = .returned ∧ after = some c ∧ acts2 = []
    | h :: _ => ApplyFacts sys repoPath workBranch stagingBranch h c out after acts2

/-- What one cycle does, given the output `logOut` of `git log`, the ledger file
`before` and what loading it yields (`res`): how the call ends, the ledger
file `after`, and the events. -/
def CycleFacts {σ : Type} (sys : Sys σ) (repoPath workBranch stagingBranch logOut : Str)
    (before res : Option Str) (out : Outcome) (after : Option Str) (acts : List Event) :
    Prop :=
  ∃ r1 r2 w3 rest,
    logOut = (sys.exec w3 repoPath [] "git".toList
      ["log".toList, "--pretty=format:%H".toList,
        stagingBranch ++ "..".toList ++ workBranch]).1.stdout ∧
    acts = syncActions repoPath workBranch stagingBranch r1 r2
      (sys.exec w3 repoPath [] "git".toList
        ["log".toList, "--pretty=format:%H".toList,
          stagingBranch ++ "..".toList ++ workBranch]).1 ++ rest ∧
    (((stringsSplit '\n' logOut).head? = some [] ∧ out = .returned ∧ after = before ∧
        rest = [.println "No new commits to transfer.\n".toList])
    ∨ ((stringsSplit '\n' logOut).head? ≠ some [] ∧
        ∃ a1,
          ((res = none ∧ out = .exited 1 ∧
              LoadFacts sys stagingBranch before none after a1 ∧ rest = a1)
          ∨ (∃ c a2, res = some c ∧
              LoadFacts sys stagingBranch before (some c) (some c) a1 ∧
              LoopFacts sys repoPath workBranch stagingBranch c
                (stringsSplit '\n' logOut).reverse out after a2 ∧
              rest = a1 ++ a2))))

/-- Whether some `git push` of the trace succeeded (`cmd.Run()` returned no
error). -/
def pushSucceeded (t : List Event) : Bool :=
  (execs t).any (fun cr => isPush cr.1 && cr.2.err.isNone)

/-! ## Concrete worlds -/

/-- A world in which `git log` prints three identifiers, newest first,
`git push` fails with exit status 1, and every other command succeeds
silently. -/
def demoSys : Sys Nat where
  exec := fun w _ _ _ arg =>
    if arg.head? = some "log".toList then (⟨"c3\nc2\nc1".toList, [], none⟩, w + 1)
    else if arg.head? = some "push".toList then
      (⟨[], "rejected".toList, some "exit status 1".toList⟩, w + 1)
    else (⟨[], [], none⟩, w + 1)
  now := fun _ => "2023-01-01T00:00:00Z".toList
  ioErr := fun _ _ _ => none

/-- A world in which `git log` prints one identifier and `git cherry-pick`
reports a conflict. -/
def conflictSys : Sys Nat where
  exec := fun w _ _ _ arg =>
    if arg.head? = some "log".toList then (⟨"c1".toList, [], none⟩, w + 1)
    else if arg.head? = some "cherry-pick".toList then
      (⟨"error: could not apply c1".toList, [], some "exit status 1".toList⟩, w + 1)
    else (⟨[], [], none⟩, w + 1)
  now := fun _ => "2023-01-01T00:00:00Z".toList
  ioErr := fun _ _ _ => none

/-- A world in which `git log` prints nothing. -/
def emptyLogSys : Sys Nat where
  exec := fun w _ _ _ _ => (⟨[], [], none⟩, w + 1)
  now := fun _ => "2023-01-01T00:00:00Z".toList
  ioErr := fun _ _ _ => none

/-- The older of two 40-digit commit identifiers; it starts with the last digit
of `hashNew`. -/
def hashOld : Str := "e41b07c39d5a2f8860c1d4e7b3a95f0211c8d7a6".toList

/-- The newer of two 40-digit commit identifiers. -/
def hashNew : Str := "3c9a51d07ab2f4486e0d9a7715c2b8e4f6a01d2e".toList

/-- A world in which `git log` prints `hashNew` and `hashOld`, newest first, and
every command succeeds silently. -/
def truncSys : Sys Nat where
  exec := fun w _ _ _ arg =>
    if arg.head? = some "log".toList then
      (⟨hashNew ++ "\n".toList ++ hashOld, [], none⟩, w + 1)
    else (⟨[], [], none⟩, w + 1)
  now := fun _ => "2023-01-01T00:00:00Z".toList
  ioErr := fun _ _ _ => none

/-- A start at which the ledger of `staging` holds one truncated line: the first
39 digits of `hashNew`, with no newline. -/
def truncState : State Nat :=
  ⟨0, fun p => if p = ledgerPath "staging".toList then some (hashNew.take 39) else none, []⟩

/-- The state of a repository as far as checkouts go: the branch the local
checkout points at, and whether the index holds unmerged paths. -/
structure Repo where
  head : Str
  unmerged : Bool

/-- A world over `Repo` in which `git log` prints `c1`; `git cherry-pick` hits a
modify/delete conflict, reported by git as "CONFLICT" on standard output and
"error: could not apply" on standard error, and leaves unmerged paths; and
`git checkout` moves the local checkout unless there are unmerged paths, in
which case it fails. -/
def unmergedSys : Sys Repo where
  exec := fun w _ _ _ arg =>
    if arg.head? = some "log".toList then (⟨"c1".toList, [], none⟩, w)
    else if arg.head? = some "cherry-pick".toList then
      (⟨"CONFLICT (modify/delete): f deleted in HEAD and modified in c1".toList,
        "error: could not apply c1".toList, some "exit status 1".toList⟩,
        { w with unmerged := true })
    else if arg.head? = some "checkout".toList then
      if w.unmerged then
        (⟨[], "error: you need to resolve your current index first".toList,
          some "exit status 1".toList⟩, w)
      else (⟨[], [], none⟩, { w with head := arg.getD 1 [] })
    else (⟨[], [], none⟩, w)
  now := fun _ => "2023-01-01T00:00:00Z".toList
  ioErr := fun _ _ _ => none

/-- A start on the work branch with a clean index and no ledger. -/
def unmergedState : State Repo := ⟨⟨"feature".toList, false⟩, fun _ => none, []⟩

/-- The repository path of the concrete runs. -/
def demoRepo : Str := ".".toList

/-- The work branch of the concrete runs. -/
def demoWork : Str := "feature".toList

/-- The staging branch of the concrete runs. -/
def demoStaging : Str := "staging".toList

/-- The start of a process: no file in the working directory, nothing done. -/
def demoState : State Nat := ⟨0, fun _ => none, []⟩

/-- A start at which the ledger of `staging` already holds `c1`, `c2` and `c3`. -/
def ledgeredState : State Nat :=
  ⟨0, fun p => if p = ledgerPath "staging".toList then some "c1\nc2\nc3\n".toList else none, []⟩

/-! ## Auxiliary lemmas: reversal -/

theorem swapAt_ends {α : Type} (pre mid post : List α) (x y : α) :
    swapAt (pre ++ x :: (mid ++ y :: post)) pre.length (pre.length + mid.length + 1)
      = pre ++ y :: (mid ++ x :: post) := by
  have h1 : (pre ++ x :: (mid ++ y :: post))[pre.length]? = some x := by
    rw [List.getElem?_append_right (Nat.le_refl _)]
    simp
  have h2 : (pre ++ x :: (mid ++ y :: post))[pre.length + mid.length + 1]? = some y := by
    rw [List.getElem?_append_right (by omega)]
    have : pre.length + mid.length + 1 - pre.length = mid.length + 1 := by omega
    rw [this, List.getElem?_cons_succ, List.getElem?_append_right (Nat.le_refl _)]
    simp
  unfold swapAt
  rw [h1, h2]
  simp only
  rw [List.set_append_right _ _ (by omega)]
  simp only [Nat.sub_self, List.set_cons_zero]
  rw [List.set_append_right _ _ (by omega)]
  have : pre.length + mid.length + 1 - pre.length = mid.length + 1 := by omega
  rw [this]
  simp only [List.set_cons_succ]
  rw [List.set_append_right _ _ (by omega)]
  simp

theorem reverseLoop_spec {α : Type} :
    ∀ (n : Nat) (fuel : Nat) (pre mid post : List α), mid.length = n → n ≤ 2 * fuel + 1 →
      reverseLoop fuel (pre ++ mid ++ post) pre.length (pre.length + mid.length - 1)
        = pre ++ mid.reverse ++ post := by
  intro n
  induction n using Nat.strong_induction_on with
  | _ n ih =>
    intro fuel pre mid post hn hfuel
    rcases mid with _ | ⟨x, mid⟩
    · cases fuel <;> simp [reverseLoop]
    · rcases List.eq_nil_or_concat mid with rfl | ⟨mid1, y, rfl⟩
      · cases fuel <;> simp [reverseLoop]
      · rw [List.concat_eq_append] at hn ⊢
        have hlen : mid1.length + 2 = n := by
          simp at hn
          omega
        obtain ⟨fuel1, rfl⟩ : ∃ f, fuel = f + 1 := ⟨fuel - 1, by omega⟩
        unfold reverseLoop
        have hlt : pre.length < pre.length + (x :: (mid1 ++ [y])).length - 1 := by
          simp
        rw [if_pos hlt]
        have hj : pre.length + (x :: (mid1 ++ [y])).length - 1
            = pre.length + mid1.length + 1 := by
          simp
          omega
        rw [hj]
        have hshape : pre ++ x :: (mid1 ++ [y]) ++ post
            = pre ++ x :: (mid1 ++ y :: post) := by simp
        rw [hshape, swapAt_ends]
        have key := ih mid1.length (by omega) fuel1 (pre ++ [y]) mid1 (x :: post) rfl (by omega)
        have e1 : pre ++ [y] ++ mid1 ++ x :: post = pre ++ y :: (mid1 ++ x :: post) := by simp
        have e2 : (pre ++ [y]).length = pre.length + 1 := by simp
        have e3 : (pre ++ [y]).length + mid1.length - 1 = pre.length + mid1.length + 1 - 1 := by
          simp only [List.length_append, List.length_singleton]
          omega
        rw [e1, e3, e2] at key
        rw [key]
        simp

theorem reverseLoop_eq_reverse {α : Type} (fuel : Nat) (a : List α)
    (h : a.length ≤ 2 * fuel + 1) :
    reverseLoop fuel a 0 (a.length - 1) = a.reverse := by
  have h := reverseLoop_spec a.length fuel [] a [] rfl h
  simpa using h

theorem reverseInPlace_eq_reverse {α : Type} (a : List α) :
    reverseInPlace a = a.reverse :=
  reverseLoop_eq_reverse a.length a (by omega)

/-! ## Auxiliary lemmas: observations -/

theorem actions_append (t u : List Event) : actions (t ++ u) = actions t ++ actions u := by
  simp [actions]

theorem actions_idem (t : List Event) : actions (actions t) = actions t := by
  simp [actions]

theorem commands_append (t u : List Event) : commands (t ++ u) = commands t ++ commands u := by
  simp [commands]

theorem execs_append (t u : List Event) : execs (t ++ u) = execs t ++ execs u := by
  simp [execs]

theorem printed_append (t u : List Event) : printed (t ++ u) = printed t ++ printed u := by
  simp [printed]

theorem fileOps_append (t u : List Event) : fileOps (t ++ u) = fileOps t ++ fileOps u := by
  simp [fileOps]

theorem cherryPicked_append (t u : List Event) :
    cherryPicked (t ++ u) = cherryPicked t ++ cherryPicked u := by
  simp [cherryPicked, commands_append]

theorem commands_actions (t : List Event) : commands (actions t) = commands t := by
  induction t with
  | nil => rfl
  | cons e t ih =>
    have h1 : actions (e :: t) = actions [e] ++ actions t := actions_append [e] t
    have h2 : commands (e :: t) = commands [e] ++ commands t := commands_append [e] t
    rw [h1, h2, commands_append, ih]
    cases e <;> rfl

theorem execs_actions (t : List Event) : execs (actions t) = execs t := by
  induction t with
  | nil => rfl
  | cons e t ih =>
    have h1 : actions (e :: t) = actions [e] ++ actions t := actions_append [e] t
    have h2 : execs (e :: t) = execs [e] ++ execs t := execs_append [e] t
    rw [h1, h2, execs_append, ih]
    cases e <;> rfl

theorem printed_actions (t : List Event) : printed (actions t) = printed t := by
  induction t with
  | nil => rfl
  | cons e t ih =>
    have h1 : actions (e :: t) = actions [e] ++ actions t := actions_append [e] t
    have h2 : printed (e :: t) = printed [e] ++ printed t := printed_append [e] t
    rw [h1, h2, printed_append, ih]
    cases e <;> rfl

theorem fileOps_actions (t : List Event) : fileOps (actions t) = fileOps t := by
  induction t with
  | nil => rfl
  | cons e t ih =>
    have h1 : actions (e :: t) = actions [e] ++ actions t := actions_append [e] t
    have h2 : fileOps (e :: t) = fileOps [e] ++ fileOps t := fileOps_append [e] t
    rw [h1, h2, fileOps_append, ih]
    cases e <;> rfl

theorem cherryPicked_actions (t : List Event) : cherryPicked (actions t) = cherryPicked t := by
  simp [cherryPicked, commands_actions]

/-! ## Auxiliary lemmas: the phases of a cycle -/

theorem runCommand_spec {σ : Type} (sys : Sys σ) (dir : Str) (env : List Str) (name : Str)
    (arg : List Str) (s : State σ) :
    (runCommand sys dir env name arg s).1 = (sys.exec s.world dir env name arg).1.stdout ∧
    (runCommand sys dir env name arg s).2.files = s.files ∧
    ∃ evs, (runCommand sys dir env name arg s).2.trace = s.trace ++ evs ∧
      actions evs = [.exec dir env name arg (sys.exec s.world dir env name arg).1] := by
  unfold runCommand
  cases h : (sys.exec s.world dir env name arg).1.err with
  | none =>
    simp only [State.emit, h, List.append_assoc, List.singleton_append]
    exact ⟨trivial, trivial, ⟨_, rfl, by simp [actions]⟩⟩
  | some e =>
    simp only [State.emit, h, List.append_assoc, List.singleton_append]
    exact ⟨trivial, trivial, ⟨_, rfl, by simp [actions]⟩⟩

theorem syncAndLog_spec {σ : Type} (sys : Sys σ) (repoPath workBranch stagingBranch : Str)
    (s : State σ) :
    (syncAndLog sys repoPath workBranch stagingBranch s).2.files = s.files ∧
    ∃ r1 r2 w evs,
      (syncAndLog sys repoPath workBranch stagingBranch s).1
        = (sys.exec w repoPath [] "git".toList
            ["log".toList, "--pretty=format:%H".toList,
              stagingBranch ++ "..".toList ++ workBranch]).1.stdout ∧
      (syncAndLog sys repoPath workBranch stagingBranch s).2.trace = s.trace ++ evs ∧
      actions evs = syncActions repoPath workBranch stagingBranch r1 r2
        (sys.exec w repoPath [] "git".toList
            ["log".toList, "--pretty=format:%H".toList,
              stagingBranch ++ "..".toList ++ workBranch]).1 := by
  simp only [syncAndLog]
  obtain ⟨-, f1, e1, t1, a1⟩ := runCommand_spec sys repoPath [] "git".toList ["fetch".toList] s
  generalize (runCommand sys repoPath [] "git".toList ["fetch".toList] s).2 = s1 at *
  obtain ⟨-, f2, e2, t2, a2⟩ :=
    runCommand_spec sys repoPath [] "git".toList ["checkout".toList, workBranch] s1
  generalize (runCommand sys repoPath [] "git".toList ["checkout".toList, workBranch] s1).2
    = s2 at *
  obtain ⟨o3, f3, e3, t3, a3⟩ := runCommand_spec sys repoPath [] "git".toList
    ["log".toList, "--pretty=format:%H".toList, stagingBranch ++ "..".toList ++ workBranch] s2
  refine ⟨by simp only [f3, f2, f1],
    (sys.exec s.world repoPath [] "git".toList ["fetch".toList]).1,
    (sys.exec s1.world repoPath [] "git".toList ["checkout".toList, workBranch]).1,
    s2.world, e1 ++ (e2 ++ e3), o3, ?_, ?_⟩
  · rw [t3, t2, t1, List.append_assoc, List.append_assoc]
  · simp only [actions_append, a1, a2, a3, syncActions, List.cons_append, List.nil_append]

theorem loadLedger_spec {σ : Type} (sys : Sys σ) (stagingBranch : Str) (s : State σ) :
    ∃ evs, (loadLedger sys stagingBranch s).2.trace = s.trace ++ evs ∧
      LoadFacts sys stagingBranch (s.files (ledgerPath stagingBranch))
        (loadLedger sys stagingBranch s).1
        ((loadLedger sys stagingBranch s).2.files (ledgerPath stagingBranch)) (actions evs) := by
  unfold loadLedger readFile
  simp only [State.emit]
  cases hr : sys.ioErr s.world .read (ledgerPath stagingBranch) with
  | some e =>
    simp only [List.append_assoc, List.singleton_append]
    exact ⟨_, rfl, Or.inr (Or.inr (Or.inl ⟨s.world, e, hr, rfl, rfl, by simp [actions]⟩))⟩
  | none =>
    cases hf : s.files (ledgerPath stagingBranch) with
    | some c =>
      simp only [hf]
      exact ⟨_, rfl, Or.inl ⟨c, rfl, rfl, rfl, by simp [actions]⟩⟩
    | none =>
      simp only [hf, osCreate, State.emit]
      cases hc : sys.ioErr s.world .create (ledgerPath stagingBranch) with
      | some e =>
        simp only [List.append_assoc, List.singleton_append]
        exact ⟨_, rfl, Or.inr (Or.inr (Or.inr
          ⟨s.world, e, hc, rfl, rfl, hf, by simp [actions]⟩))⟩
      | none =>
        simp only [State.setFile, List.append_assoc, List.singleton_append]
        exact ⟨_, rfl, Or.inr (Or.inl ⟨rfl, rfl, by simp, by simp [actions]⟩)⟩

theorem applyCommit_spec {σ : Type} (sys : Sys σ)
    (repoPath workBranch stagingBranch commitHash c0 : Str) (s : State σ)
    (hc0 : s.files (ledgerPath stagingBranch) = some c0) :
    ∃ evs,
      (applyCommit sys repoPath workBranch stagingBranch commitHash s).2.trace = s.trace ++ evs ∧
      ApplyFacts sys repoPath workBranch stagingBranch commitHash c0
        (applyCommit sys repoPath workBranch stagingBranch commitHash s).1
        ((applyCommit sys repoPath workBranch stagingBranch commitHash s).2.files
          (ledgerPath stagingBranch))
        (actions evs) := by
  simp only [applyCommit]
  obtain ⟨-, f4, e4, t4, a4⟩ :=
    runCommand_spec sys repoPath [] "git".toList ["checkout".toList, stagingBranch] s
  generalize (runCommand sys repoPath [] "git".toList ["checkout".toList, stagingBranch] s).2
    = s4 at *
  obtain ⟨o5, f5, e5, t5, a5⟩ := runCommand_spec sys repoPath [] "git".toList
    ["cherry-pick".toList, "-Xtheirs".toList, commitHash] s4
  rw [o5]
  generalize (runCommand sys repoPath [] "git".toList
    ["cherry-pick".toList, "-Xtheirs".toList, commitHash] s4).2 = s5 at *
  cases herr : stringsContains (sys.exec s4.world repoPath [] "git".toList
      ["cherry-pick".toList, "-Xtheirs".toList, commitHash]).1.stdout "error".toList with
  | true =>
    simp only [if_true, State.emit]
    refine ⟨e4 ++ (e5 ++
        [.println "Cherry-pick failed, please resolve conflicts manually.\n".toList]), ?_,
      (sys.exec s.world repoPath [] "git".toList ["checkout".toList, stagingBranch]).1, s4.world,
      Or.inl ⟨herr, rfl, ?_, ?_⟩⟩
    · rw [t5, t4, List.append_assoc, List.append_assoc]
    · rw [f5, f4, hc0]
    · simp only [actions_append, a4, a5]
      simp [actions, evGit]
  | false =>
    simp only [Bool.false_eq_true, if_false]
    obtain ⟨-, f6, e6, t6, a6⟩ := runCommand_spec sys repoPath [] "git".toList
      ["commit".toList, "--amend".toList, "--no-edit".toList, "--date".toList,
        sys.now s5.world] s5
    generalize (runCommand sys repoPath [] "git".toList
      ["commit".toList, "--amend".toList, "--no-edit".toList, "--date".toList,
        sys.now s5.world] s5).2 = s6 at *
    obtain ⟨-, f7, e7, t7, a7⟩ := runCommand_spec sys repoPath [] "git".toList
      ["push".toList, "--set-upstream".toList, "origin".toList, stagingBranch, ":".toList,
        stagingBranch] s6
    generalize (runCommand sys repoPath [] "git".toList
      ["push".toList, "--set-upstream".toList, "origin".toList, stagingBranch, ":".toList,
        stagingBranch] s6).2 = s7 at *
    obtain ⟨-, f8, e8, t8, a8⟩ :=
      runCommand_spec sys repoPath [] "git".toList ["checkout".toList, workBranch] s7
    generalize (runCommand sys repoPath [] "git".toList ["checkout".toList, workBranch] s7).2
      = s8 at *
    have hfile : s8.files (ledgerPath stagingBranch) = some c0 := by
      rw [f8, f7, f6, f5, f4, hc0]
    have htr : s8.trace = s.trace ++ (e4 ++ (e5 ++ (e6 ++ (e7 ++ e8)))) := by
      rw [t8, t7, t6, t5, t4]
      simp only [List.append_assoc]
    have hact : actions (e4 ++ (e5 ++ (e6 ++ (e7 ++ e8)))) ++
        [.println ("Transferred commit: ".toList ++ commitHash ++ "\n".toList),
          .openAppend (ledgerPath stagingBranch)]
        = applyPrefix repoPath workBranch stagingBranch commitHash
            (sys.exec s.world repoPath [] "git".toList ["checkout".toList, stagingBranch]).1
            (sys.exec s4.world repoPath [] "git".toList
              ["cherry-pick".toList, "-Xtheirs".toList, commitHash]).1
            (sys.exec s5.world repoPath [] "git".toList
              ["commit".toList, "--amend".toList, "--no-edit".toList, "--date".toList,
                sys.now s5.world]).1
            (sys.exec s6.world repoPath [] "git".toList
              ["push".toList, "--set-upstream".toList, "origin".toList, stagingBranch,
                ":".toList, stagingBranch]).1
            (sys.exec s7.world repoPath [] "git".toList ["checkout".toList, workBranch]).1
            (sys.now s5.world) := by
      simp only [actions_append, a4, a5, a6, a7, a8, applyPrefix, evGit, List.cons_append,
        List.nil_append]
    simp only [osOpenAppend, State.emit]
    cases ho : sys.ioErr s8.world .openAppend (ledgerPath stagingBranch) with
    | some e =>
      simp only []
      refine ⟨(e4 ++ (e5 ++ (e6 ++ (e7 ++ e8)))) ++
          [.println ("Transferred commit: ".toList ++ commitHash ++ "\n".toList),
            .openAppend (ledgerPath stagingBranch), .fatal e], ?_,
        (sys.exec s.world repoPath [] "git".toList ["checkout".toList, stagingBranch]).1, s4.world,
        Or.inr ⟨herr, s5.world,
          (sys.exec s5.world repoPath [] "git".toList
            ["commit".toList, "--amend".toList, "--no-edit".toList, "--date".toList,
              sys.now s5.world]).1,
          (sys.exec s6.world repoPath [] "git".toList
            ["push".toList, "--set-upstream".toList, "origin".toList, stagingBranch,
              ":".toList, stagingBranch]).1,
          (sys.exec s7.world repoPath [] "git".toList ["checkout".toList, workBranch]).1,
          Or.inl ⟨s8.world, e, ho, rfl, hfile, ?_⟩⟩⟩
      · rw [htr]
        simp only [List.append_assoc, List.singleton_append, List.cons_append, List.nil_append]
      · rw [← hact]
        simp [actions_append, actions]
    | none =>
      simp only [hfile, writeString, State.emit]
      cases hw : sys.ioErr s8.world .write (ledgerPath stagingBranch) with
      | some e =>
        simp only []
        refine ⟨(e4 ++ (e5 ++ (e6 ++ (e7 ++ e8)))) ++
            [.println ("Transferred commit: ".toList ++ commitHash ++ "\n".toList),
              .openAppend (ledgerPath stagingBranch),
              .write (ledgerPath stagingBranch) (commitHash ++ "\n".toList), .fatal e], ?_,
          (sys.exec s.world repoPath [] "git".toList ["checkout".toList, stagingBranch]).1, s4.world,
          Or.inr ⟨herr, s5.world,
            (sys.exec s5.world repoPath [] "git".toList
            ["commit".toList, "--amend".toList, "--no-edit".toList, "--date".toList,
              sys.now s5.world]).1,
            (sys.exec s6.world repoPath [] "git".toList
            ["push".toList, "--set-upstream".toList, "origin".toList, stagingBranch,
              ":".toList, stagingBranch]).1,
            (sys.exec s7.world repoPath [] "git".toList ["checkout".toList, workBranch]).1,
            Or.inr (Or.inl ⟨s8.world, e, hw, rfl, hfile, ?_⟩)⟩⟩
        · rw [htr]
          simp only [List.append_assoc, List.singleton_append, List.cons_append,
            List.nil_append]
        · rw [← hact]
          simp [actions_append, actions]
      | none =>
        simp only [State.setFile, hfile]
        refine ⟨(e4 ++ (e5 ++ (e6 ++ (e7 ++ e8)))) ++
            [.println ("Transferred commit: ".toList ++ commitHash ++ "\n".toList),
              .openAppend (ledgerPath stagingBranch),
              .write (ledgerPath stagingBranch) (commitHash ++ "\n".toList)], ?_,
          (sys.exec s.world repoPath [] "git".toList ["checkout".toList, stagingBranch]).1, s4.world,
          Or.inr ⟨herr, s5.world,
            (sys.exec s5.world repoPath [] "git".toList
            ["commit".toList, "--amend".toList, "--no-edit".toList, "--date".toList,
              sys.now s5.world]).1,
            (sys.exec s6.world repoPath [] "git".toList
            ["push".toList, "--set-upstream".toList, "origin".toList, stagingBranch,
              ":".toList, stagingBranch]).1,
            (sys.exec s7.world repoPath [] "git".toList ["checkout".toList, workBranch]).1,
            Or.inr (Or.inr ⟨rfl, ?_, ?_⟩)⟩⟩
        · rw [htr]
          simp only [List.append_assoc, List.singleton_append, List.cons_append,
            List.nil_append]
        · simp
        · rw [← hact]
          simp [actions_append, actions]

theorem transferLoop_spec {σ : Type} (sys : Sys σ) (repoPath workBranch stagingBranch c : Str)
    (backlog : List Str) :
    ∀ (s : State σ), s.files (ledgerPath stagingBranch) = some c →
    ∃ evs,
      (transferLoop sys repoPath workBranch stagingBranch c backlog s).2.trace = s.trace ++ evs ∧
      LoopFacts sys repoPath workBranch stagingBranch c backlog
        (transferLoop sys repoPath workBranch stagingBranch c backlog s).1
        ((transferLoop sys repoPath workBranch stagingBranch c backlog s).2.files
          (ledgerPath stagingBranch))
        (actions evs) := by
  induction backlog with
  | nil =>
    intro s hc
    exact ⟨[], by simp [transferLoop], [], by simp [actions], by simp [transferLoop, hc]⟩
  | cons h rest ih =>
    intro s hc
    cases hh : stringsContains c h with
    | true =>
      obtain ⟨evs, ht, acts2, ha, hm⟩ := ih (s.emit (.println (skipLine h))) hc
      refine ⟨[.println (skipLine h)] ++ evs, ?_, acts2, ?_, ?_⟩
      · simp only [transferLoop, hh, if_true]
        rw [show ("Skipping previously transferred commit: ".toList ++ h ++ "\n".toList)
          = skipLine h from rfl, ht]
        simp [State.emit]
      · rw [actions_append, ha]
        simp [actions, List.takeWhile_cons, hh]
      · simp only [transferLoop, hh, if_true, List.dropWhile_cons]
        exact hm
    | false =>
      obtain ⟨evs, ht, hf⟩ := applyCommit_spec sys repoPath workBranch stagingBranch h c s hc
      refine ⟨evs, ?_, actions evs, ?_, ?_⟩
      · simp only [transferLoop, hh, Bool.false_eq_true, if_false]
        exact ht
      · simp [List.takeWhile_cons, hh]
      · simp only [transferLoop, hh, Bool.false_eq_true, if_false, List.dropWhile_cons]
        exact hf

theorem stringsSplit_ne_nil {α : Type} [DecidableEq α] (sep : α) (s : List α) :
    stringsSplit sep s ≠ [] := by
  induction s with
  | nil => simp [stringsSplit]
  | cons c cs ih =>
    unfold stringsSplit
    split
    · simp
    · split <;> simp

theorem LoadFacts_some {σ : Type} {sys : Sys σ} {stagingBranch : Str}
    {before after : Option Str} {c : Str} {acts : List Event}
    (h : LoadFacts sys stagingBranch before (some c) after acts) :
    after = some c ∧
      ((before = some c ∧ acts = [.readFile (ledgerPath stagingBranch)]) ∨
        (before = none ∧ c = [] ∧
          acts = [.readFile (ledgerPath stagingBranch), .create (ledgerPath stagingBranch)])) := by
  rcases h with ⟨c1, hb, hr, ha, hacts⟩ | ⟨hb, hr, ha, hacts⟩ | ⟨_, _, _, hr, _⟩ |
    ⟨_, _, _, _, hr, _⟩
  · cases hr
    exact ⟨ha, Or.inl ⟨hb, hacts⟩⟩
  · cases hr
    exact ⟨ha, Or.inr ⟨hb, rfl, hacts⟩⟩
  · cases hr
  · cases hr

theorem transferCommit_spec {σ : Type} (sys : Sys σ) (repoPath workBranch stagingBranch : Str)
    (s : State σ) :
    ∃ evs,
      (transferCommit sys repoPath workBranch stagingBranch s).2.trace = s.trace ++ evs ∧
      CycleFacts sys repoPath workBranch stagingBranch
        (syncAndLog sys repoPath workBranch stagingBranch s).1
        (s.files (ledgerPath stagingBranch))
        (loadLedger sys stagingBranch (syncAndLog sys repoPath workBranch stagingBranch s).2).1
        (transferCommit sys repoPath workBranch stagingBranch s).1
        ((transferCommit sys repoPath workBranch stagingBranch s).2.files
          (ledgerPath stagingBranch))
        (actions evs) := by
  obtain ⟨f3, r1, r2, w3, e3, o3, t3, a3⟩ :=
    syncAndLog_spec sys repoPath workBranch stagingBranch s
  simp only [transferCommit]
  generalize (syncAndLog sys repoPath workBranch stagingBranch s).1 = logOut at *
  generalize (syncAndLog sys repoPath workBranch stagingBranch s).2 = s3 at *
  have hlen : ¬ (stringsSplit '\n' logOut).length = 0 := by
    intro h
    exact stringsSplit_ne_nil _ _ (List.length_eq_zero.mp h)
  by_cases hhead : (stringsSplit '\n' logOut).head? = some []
  · rw [if_pos (Or.inr hhead)]
    refine ⟨e3 ++ [.println "No new commits to transfer.\n".toList], ?_, r1, r2, w3, _, o3, ?_,
      Or.inl ⟨hhead, rfl, ?_, rfl⟩⟩
    · simp [State.emit, t3]
    · rw [actions_append, a3]
      simp [actions]
    · simp [State.emit, f3]
  · rw [if_neg (by simp [hlen, hhead])]
    obtain ⟨el, tl, hl⟩ := loadLedger_spec sys stagingBranch s3
    rw [f3] at hl
    rw [reverseInPlace_eq_reverse]
    cases hres : (loadLedger sys stagingBranch s3).1 with
    | none =>
      have hsplit : loadLedger sys stagingBranch s3 = (none, (loadLedger sys stagingBranch s3).2) :=
        Prod.ext hres rfl
      rw [hsplit]
      simp only []
      rw [hres] at hl
      refine ⟨e3 ++ el, ?_, r1, r2, w3, _, o3, ?_, Or.inr ⟨hhead, actions el,
        Or.inl ⟨rfl, rfl, hl, rfl⟩⟩⟩
      · rw [tl, t3, List.append_assoc]
      · rw [actions_append, a3]
    | some c =>
      have hsplit : loadLedger sys stagingBranch s3
          = (some c, (loadLedger sys stagingBranch s3).2) := Prod.ext hres rfl
      rw [hsplit]
      simp only []
      rw [hres] at hl
      have hfile := (LoadFacts_some hl).1
      obtain ⟨e2, t2, h2⟩ := transferLoop_spec sys repoPath workBranch stagingBranch c
        (stringsSplit '\n' logOut).reverse (loadLedger sys stagingBranch s3).2 hfile
      rw [hfile] at hl
      refine ⟨e3 ++ (el ++ e2), ?_, r1, r2, w3, _, o3, ?_, Or.inr ⟨hhead, actions el,
        Or.inr ⟨c, actions e2, rfl, hl, h2, rfl⟩⟩⟩
      · rw [t2, tl, t3, List.append_assoc, List.append_assoc]
      · rw [actions_append, actions_append, a3]

/-! ## Auxiliary lemmas: strings -/

theorem stringsContains_iff {α : Type} [DecidableEq α] (s sub : List α) :
    stringsContains s sub = true ↔ sub <:+: s := by
  simp only [stringsContains, List.any_eq_true, List.mem_tails, List.isPrefixOf_iff_prefix]
  constructor
  · rintro ⟨t, ht, hp⟩
    exact hp.isInfix.trans ht.isInfix
  · intro h
    obtain ⟨t, hp, ht⟩ := List.infix_iff_prefix_suffix.mp h
    exact ⟨t, ht, hp⟩

theorem stringsContains_nil {α : Type} [DecidableEq α] (sub : List α) :
    stringsContains [] sub = true ↔ sub = [] := by
  rw [stringsContains_iff]
  exact List.infix_nil

theorem printed_skips (l : List Str) :
    printed (l.map (fun h => Event.println (skipLine h))) = l.map skipLine := by
  induction l with
  | nil => rfl
  | cons h t ih =>
    have := printed_append [Event.println (skipLine h)]
      (t.map (fun h => Event.println (skipLine h)))
    simp only [List.map_cons, List.singleton_append] at this ⊢
    rw [this, ih]
    rfl

theorem commands_skips (l : List Str) :
    commands (l.map (fun h => Event.println (skipLine h))) = [] := by
  simp [commands]

theorem execs_skips (l : List Str) :
    execs (l.map (fun h => Event.println (skipLine h))) = [] := by
  simp [execs]

theorem fileOps_skips (l : List Str) :
    fileOps (l.map (fun h => Event.println (skipLine h))) = [] := by
  simp [fileOps]

theorem commands_syncActions (repoPath workBranch stagingBranch : Str) (r1 r2 r3 : CmdResult) :
    commands (syncActions repoPath workBranch stagingBranch r1 r2 r3) =
      syncCommands workBranch stagingBranch := by
  simp [commands, syncActions, syncCommands]

theorem printed_syncActions (repoPath workBranch stagingBranch : Str) (r1 r2 r3 : CmdResult) :
    printed (syncActions repoPath workBranch stagingBranch r1 r2 r3) = [] := by
  simp [printed, syncActions]

theorem fileOps_syncActions (repoPath workBranch stagingBranch : Str) (r1 r2 r3 : CmdResult) :
    fileOps (syncActions repoPath workBranch stagingBranch r1 r2 r3) = [] := by
  simp [fileOps, syncActions]

theorem syncCommands_not_apply (workBranch stagingBranch : Str) :
    ∀ c ∈ syncCommands workBranch stagingBranch,
      isCherryPick c = false ∧ isAmend c = false ∧ isPush c = false := by
  intro c hmem
  simp only [syncCommands, List.mem_cons, List.mem_singleton, List.not_mem_nil,
    or_false] at hmem
  rcases hmem with rfl | rfl | rfl <;> exact ⟨rfl, rfl, rfl⟩

theorem syncCommands_checkout (workBranch stagingBranch : Str) :
    ∀ c ∈ syncCommands workBranch stagingBranch, isCheckout c = true →
      c = ["git".toList, "checkout".toList, workBranch] := by
  intro c hmem hco
  simp only [syncCommands, List.mem_cons, List.mem_singleton, List.not_mem_nil,
    or_false] at hmem
  rcases hmem with rfl | rfl | rfl
  · exact absurd hco (by decide)
  · rfl
  · exact absurd hco (ne_true_of_eq_false rfl)

theorem syncCommands_no_staging (workBranch stagingBranch : Str)
    (hne : workBranch ≠ stagingBranch) :
    ["git".toList, "checkout".toList, stagingBranch] ∉ syncCommands workBranch stagingBranch := by
  intro hmem
  simp only [syncCommands, List.mem_cons, List.mem_singleton, List.not_mem_nil,
    or_false] at hmem
  rcases hmem with h | h | h
  · have h2 := congrArg isCheckout h
    rw [show isCheckout ["git".toList, "checkout".toList, stagingBranch] = true from rfl,
      show isCheckout ["git".toList, "fetch".toList] = false from rfl] at h2
    exact Bool.noConfusion h2
  · exact hne (by simpa using h.symm)
  · have h2 := congrArg isCheckout h
    rw [show isCheckout ["git".toList, "checkout".toList, stagingBranch] = true from rfl,
      show isCheckout ["git".toList, "log".toList, "--pretty=format:%H".toList,
        stagingBranch ++ "..".toList ++ workBranch] = false from rfl] at h2
    exact Bool.noConfusion h2

/-- The shape of a cycle that has a backlog and loads the ledger content `c`. -/
theorem cycle_loaded {σ : Type} (sys : Sys σ) (repoPath workBranch stagingBranch : Str)
    (s : State σ) (c : Str)
    (hback : (stringsSplit '\n'
      (syncAndLog sys repoPath workBranch stagingBranch s).1).head? ≠ some [])
    (hload : (loadLedger sys stagingBranch
      (syncAndLog sys repoPath workBranch stagingBranch s).2).1 = some c) :
    ∃ evs r1 r2 r3 a1 acts2,
      (transferCommit sys repoPath workBranch stagingBranch s).2.trace = s.trace ++ evs ∧
      actions evs = syncActions repoPath workBranch stagingBranch r1 r2 r3 ++ (a1 ++
        (((stringsSplit '\n' (syncAndLog sys repoPath workBranch stagingBranch s).1).reverse.takeWhile
          (fun h => stringsContains c h)).map (fun h => Event.println (skipLine h)) ++ acts2)) ∧
      ((s.files (ledgerPath stagingBranch) = some c ∧
          a1 = [.readFile (ledgerPath stagingBranch)]) ∨
        (s.files (ledgerPath stagingBranch) = none ∧ c = [] ∧
          a1 = [.readFile (ledgerPath stagingBranch), .create (ledgerPath stagingBranch)])) ∧
      match (stringsSplit '\n'
        (syncAndLog sys repoPath workBranch stagingBranch s).1).reverse.dropWhile
          (fun h => stringsContains c h) with
      | [] => (transferCommit sys repoPath workBranch stagingBranch s).1 = .returned ∧
          (transferCommit sys repoPath workBranch stagingBranch s).2.files
            (ledgerPath stagingBranch) = some c ∧ acts2 = []
      | h :: _ => ApplyFacts sys repoPath workBranch stagingBranch h c
          (transferCommit sys repoPath workBranch stagingBranch s).1
          ((transferCommit sys repoPath workBranch stagingBranch s).2.files
            (ledgerPath stagingBranch)) acts2 := by
  obtain ⟨evs, ht, r1, r2, w3, rest, -, hacts, hcase⟩ :=
    transferCommit_spec sys repoPath workBranch stagingBranch s
  rcases hcase with ⟨hh, -⟩ | ⟨-, a1, ⟨hres, -⟩ | ⟨c1, a2, hres, hl, hloop, hrest⟩⟩
  · exact absurd hh hback
  · rw [hload] at hres
    cases hres
  · rw [hload] at hres
    cases hres
    obtain ⟨-, ha1⟩ := LoadFacts_some hl
    obtain ⟨acts2, ha2, hm⟩ := hloop
    refine ⟨evs, r1, r2, (sys.exec w3 repoPath [] "git".toList
      ["log".toList, "--pretty=format:%H".toList,
        stagingBranch ++ "..".toList ++ workBranch]).1, a1, acts2, ht, ?_, ha1, hm⟩
    rw [hacts, hrest, ha2]

theorem ApplyFacts_obs {σ : Type} {sys : Sys σ}
    {repoPath workBranch stagingBranch commitHash c : Str} {out : Outcome}
    {after : Option Str} {acts : List Event}
    (h : ApplyFacts sys repoPath workBranch stagingBranch commitHash c out after acts) :
    cherryPicked acts = [commitHash] ∧
    (commands acts).filter isCherryPick
      = [["git".toList, "cherry-pick".toList, "-Xtheirs".toList, commitHash]] ∧
    (printed acts = ["Cherry-pick failed, please resolve conflicts manually.\n".toList] ∨
      printed acts = ["Transferred commit: ".toList ++ commitHash ++ "\n".toList]) := by
  obtain ⟨r4, w5, ⟨-, -, -, hacts⟩ | ⟨-, w6, r6, r7, r8, hm⟩⟩ := h
  · rw [hacts]
    exact ⟨rfl, rfl, Or.inl rfl⟩
  · rcases hm with ⟨_, _, -, -, -, hacts⟩ | ⟨_, _, -, -, -, hacts⟩ | ⟨-, -, hacts⟩ <;>
    · rw [hacts]
      exact ⟨rfl, rfl, Or.inr rfl⟩

theorem transferLoop_stops {σ : Type} (sys : Sys σ) (repoPath workBranch stagingBranch c : Str)
    (bl : List Str) :
    ∀ (h : Str) (post : List Str) (s0 : State σ),
      bl.dropWhile (fun x => stringsContains c x) = h :: post →
      transferLoop sys repoPath workBranch stagingBranch c bl s0
        = transferLoop sys repoPath workBranch stagingBranch c
            (bl.takeWhile (fun x => stringsContains c x) ++ [h]) s0 := by
  induction bl with
  | nil =>
    intro h post s0 hd
    simp at hd
  | cons x rest ih =>
    intro h post s0 hd
    cases hx : stringsContains c x with
    | true =>
      rw [List.dropWhile_cons, hx] at hd
      simp only [if_true] at hd
      rw [List.takeWhile_cons, hx]
      simp only [if_true, List.cons_append, transferLoop, hx]
      exact ih h post _ hd
    | false =>
      rw [List.dropWhile_cons, hx] at hd
      simp only [Bool.false_eq_true, if_false, List.cons.injEq] at hd
      rw [List.takeWhile_cons, hx]
      obtain ⟨rfl, -⟩ := hd
      simp only [Bool.false_eq_true, if_false, List.nil_append, transferLoop, hx]

theorem LoadFacts_none {σ : Type} {sys : Sys σ} {stagingBranch : Str}
    {before after : Option Str} {acts : List Event}
    (h : LoadFacts sys stagingBranch before none after acts) :
    after = before ∧ execs acts = [] ∧ (∃ e, Event.fatal e ∈ acts) ∧
      ∃ w op e, sys.ioErr w op (ledgerPath stagingBranch) = some e := by
  rcases h with ⟨c1, -, hr, -⟩ | ⟨-, hr, -⟩ | ⟨w, e, hio, -, ha, hacts⟩ |
    ⟨w, e, hio, hb, -, ha, hacts⟩
  · cases hr
  · cases hr
  · rw [hacts]
    exact ⟨ha, rfl, ⟨e, by simp⟩, w, _, e, hio⟩
  · rw [hacts, ha, hb]
    exact ⟨rfl, rfl, ⟨e, by simp⟩, w, _, e, hio⟩

theorem commands_eq_execs (t : List Event) : commands t = (execs t).map Prod.fst := by
  induction t with
  | nil => rfl
  | cons e t ih =>
    have h1 : commands (e :: t) = commands [e] ++ commands t := commands_append [e] t
    have h2 : execs (e :: t) = execs [e] ++ execs t := execs_append [e] t
    rw [h1, h2, List.map_append, ih]
    cases e <;> rfl

theorem execs_syncActions_not_cherryPick (repoPath workBranch stagingBranch : Str)
    (r1 r2 r3 : CmdResult) (cr : List Str × CmdResult)
    (hmem : cr ∈ execs (syncActions repoPath workBranch stagingBranch r1 r2 r3)) :
    isCherryPick cr.1 = false := by
  have h1 : cr.1 ∈ commands (syncActions repoPath workBranch stagingBranch r1 r2 r3) := by
    rw [commands_eq_execs]
    exact List.mem_map_of_mem _ hmem
  rw [commands_syncActions] at h1
  exact (syncCommands_not_apply workBranch stagingBranch _ h1).1

theorem ApplyFacts_conflict {σ : Type} {sys : Sys σ}
    {repoPath workBranch stagingBranch commitHash c : Str} {out : Outcome}
    {after : Option Str} {acts : List Event}
    (h : ApplyFacts sys repoPath workBranch stagingBranch commitHash c out after acts)
    (cr : List Str × CmdResult) (hmem : cr ∈ execs acts) (hcp : isCherryPick cr.1 = true)
    (herr : stringsContains cr.2.stdout "error".toList = true) :
    out = .exited 1 ∧ after = some c ∧ fileOps acts = [] ∧
      commands acts = [["git".toList, "checkout".toList, stagingBranch],
        ["git".toList, "cherry-pick".toList, "-Xtheirs".toList, commitHash]] := by
  obtain ⟨r4, w5, ⟨-, hout, hafter, hacts⟩ | ⟨hno, w6, r6, r7, r8, hm⟩⟩ := h
  · rw [hacts]
    exact ⟨hout, hafter, rfl, rfl⟩
  · exfalso
    have hex : ∃ tail, execs tail = [] ∧ acts = applyPrefix repoPath workBranch stagingBranch
        commitHash r4 (sys.exec w5 repoPath [] "git".toList
          ["cherry-pick".toList, "-Xtheirs".toList, commitHash]).1 r6 r7 r8 (sys.now w6)
          ++ tail := by
      rcases hm with ⟨_, e, -, -, -, hacts⟩ | ⟨_, e, -, -, -, hacts⟩ | ⟨-, -, hacts⟩
      · exact ⟨[.fatal e], rfl, hacts⟩
      · exact ⟨[.write (ledgerPath stagingBranch) (commitHash ++ "\n".toList), .fatal e],
          rfl, hacts⟩
      · exact ⟨[.write (ledgerPath stagingBranch) (commitHash ++ "\n".toList)], rfl, hacts⟩
    obtain ⟨tail, htail, hacts⟩ := hex
    rw [hacts, execs_append, htail, List.append_nil] at hmem
    simp only [applyPrefix, evGit, execs, List.filterMap_cons, List.filterMap_nil,
      List.mem_cons, List.mem_singleton, List.not_mem_nil, or_false] at hmem
    rcases hmem with rfl | rfl | rfl | rfl | rfl
    · exact Bool.noConfusion hcp
    · rw [hno] at herr
      exact Bool.noConfusion herr
    · exact Bool.noConfusion hcp
    · exact Bool.noConfusion hcp
    · exact Bool.noConfusion hcp

/-! ## Auxiliary lemmas: identifiers and the ledger -/

theorem stringsSplit_no_sep {α : Type} [DecidableEq α] (sep : α) (s : List α) :
    ∀ l ∈ stringsSplit sep s, sep ∉ l := by
  induction s with
  | nil =>
    intro l hl
    simp only [stringsSplit, List.mem_singleton] at hl
    rw [hl]
    exact List.not_mem_nil _
  | cons c cs ih =>
    intro l hl
    unfold stringsSplit at hl
    by_cases hc : c = sep
    · rw [if_pos hc] at hl
      rcases List.mem_cons.mp hl with rfl | hl
      · exact List.not_mem_nil _
      · exact ih l hl
    · rw [if_neg hc] at hl
      cases hsp : stringsSplit sep cs with
      | nil =>
        rw [hsp] at hl
        simp only [List.mem_singleton] at hl
        rw [hl]
        simp only [List.mem_singleton]
        exact fun h => hc h.symm
      | cons piece pieces =>
        rw [hsp] at hl ih
        rcases List.mem_cons.mp hl with rfl | hl
        · intro hmem
          rcases List.mem_cons.mp hmem with h | h
          · exact hc h.symm
          · exact ih piece (List.mem_cons_self _ _) h
        · exact ih l (List.mem_cons_of_mem _ hl)

theorem infix_append_of_sep {α : Type} (sep : α) (A B h : List α)
    (hA : A = [] ∨ A.getLast? = some sep) (hh : sep ∉ h) (hinf : h <:+: A ++ B) :
    h <:+: A ∨ h <:+: B := by
  obtain ⟨s, t, heq⟩ := hinf
  rcases List.append_eq_append_iff.mp heq with ⟨a1, h1, h2⟩ | ⟨c1, h1, h2⟩
  · exact Or.inl ⟨s, a1, h1.symm⟩
  · rcases List.append_eq_append_iff.mp h1 with ⟨x, hx1, hx2⟩ | ⟨x, hx1, hx2⟩
    · by_cases hx : x = []
      · subst hx
        rw [List.nil_append] at hx2
        exact Or.inr ⟨[], t, by rw [h2, hx2, List.nil_append]⟩
      · exfalso
        rcases hA with hA | hA
        · rw [hA] at hx1
          have := List.append_eq_nil.mp hx1.symm
          exact hx this.2
        · rw [hx1, List.getLast?_append_of_ne_nil _ hx] at hA
          have hmem : sep ∈ x := List.mem_of_getLast?_eq_some hA
          exact hh (by rw [hx2]; exact List.mem_append_left _ hmem)
    · exact Or.inr ⟨x, t, by rw [h2, hx2]⟩

theorem contains_ledger_step (L x h : Str) (n : Nat)
    (hL : L = [] ∨ L.getLast? = some '\n') (hh : '\n' ∉ h)
    (hhn : h.length = n) (hxn : x.length = n) (hn : 0 < n) :
    stringsContains (L ++ (x ++ "\n".toList)) h = true ↔
      (stringsContains L h = true ∨ h = x) := by
  rw [stringsContains_iff, stringsContains_iff]
  have hnl : "\n".toList = ['\n'] := rfl
  rw [hnl]
  constructor
  · intro hinf
    rcases infix_append_of_sep '\n' L (x ++ ['\n']) h hL hh hinf with h1 | h1
    · exact Or.inl h1
    · rcases List.infix_concat_iff.mp h1 with h2 | h2
      · exfalso
        rcases List.suffix_concat_iff.mp h2 with h3 | ⟨t, h3, -⟩
        · rw [h3] at hhn
          simp at hhn
          omega
        · exact hh (by rw [h3]; simp)
      · exact Or.inr (h2.eq_of_length (by rw [hhn, hxn]))
  · rintro (h1 | rfl)
    · exact h1.trans (List.prefix_append L (x ++ ['\n'])).isInfix
    · exact ⟨L, ['\n'], by simp⟩

theorem takeWhile_dropWhile_of_take {α : Type} (l : List α) (p : α → Bool) (k : Nat)
    (hnd : l.Nodup) (hp : ∀ x ∈ l, p x = true ↔ x ∈ l.take k) :
    l.takeWhile p = l.take k ∧ l.dropWhile p = l.drop k := by
  have hsplit : l = l.take k ++ l.drop k := (List.take_append_drop k l).symm
  have hpos : ∀ a ∈ l.take k, p a = true := fun a ha => (hp a (List.mem_of_mem_take ha)).mpr ha
  have hhead : (l.drop k).takeWhile p = [] ∧ (l.drop k).dropWhile p = l.drop k := by
    cases hd : l.drop k with
    | nil => exact ⟨rfl, rfl⟩
    | cons y ys =>
      have hy : y ∈ l.drop k := by
        rw [hd]
        exact List.mem_cons_self _ _
      have hyn : ¬ p y = true := by
        intro hpy
        have h1 := (hp y (List.mem_of_mem_drop hy)).mp hpy
        exact List.disjoint_take_drop hnd (Nat.le_refl k) h1 hy
      simp [List.takeWhile_cons, List.dropWhile_cons, hyn]
  constructor
  · conv_lhs => rw [hsplit]
    rw [List.takeWhile_append_of_pos hpos, hhead.1, List.append_nil]
  · conv_lhs => rw [hsplit]
    rw [List.dropWhile_append_of_pos hpos, hhead.2]

/-! ## Auxiliary lemmas: consecutive cycles and the delay -/

theorem mem_of_mem_actions {t : List Event} {e : Event} (h : e ∈ actions t) : e ∈ t :=
  (List.mem_filter.mp h).1

theorem wrap64_id (x : Int) (hlo : -(2 ^ 63) ≤ x) (hhi : x < 2 ^ 63) : wrap64 x = x := by
  unfold wrap64
  rw [Int.emod_eq_of_lt (by omega) (by omega)]
  omega

theorem loadLedger_ok {σ : Type} (sys : Sys σ) (stagingBranch : Str) (t : State σ)
    (hio : ∀ w op, sys.ioErr w op (ledgerPath stagingBranch) = none) :
    (loadLedger sys stagingBranch t).1 = some (ledgerContent t.files stagingBranch) := by
  obtain ⟨evs, -, hl⟩ := loadLedger_spec sys stagingBranch t
  cases hres : (loadLedger sys stagingBranch t).1 with
  | none =>
    rw [hres] at hl
    obtain ⟨w, op, e, he⟩ := (LoadFacts_none hl).2.2.2
    rw [hio w op] at he
    cases he
  | some c =>
    rw [hres] at hl
    unfold ledgerContent
    rcases (LoadFacts_some hl).2 with ⟨hb, -⟩ | ⟨hb, hc, -⟩
    · rw [hb]
      rfl
    · rw [hb, hc]
      rfl

theorem ledgerLines_append (l1 l2 : List Str) :
    ledgerLines (l1 ++ l2) = ledgerLines l1 ++ ledgerLines l2 := by
  induction l1 with
  | nil => rfl
  | cons h t ih => simp [ledgerLines, ih]

/-- One cycle on a chain of identifiers of which the first `j` are in the
ledger: it returns, cherry-picks the next identifier and appends it. -/
theorem cycle_step {σ : Type} (sys : Sys σ) (repoPath workBranch stagingBranch logOut : Str)
    (n : Nat) (t : State σ) (j : Nat) (x : Str) (rest : List Str)
    (hlog : ∀ w, (sys.exec w repoPath [] "git".toList
      ["log".toList, "--pretty=format:%H".toList,
        stagingBranch ++ "..".toList ++ workBranch]).1.stdout = logOut)
    (hcp : ∀ w h, stringsContains (sys.exec w repoPath [] "git".toList
      ["cherry-pick".toList, "-Xtheirs".toList, h]).1.stdout "error".toList = false)
    (hio : ∀ w op, sys.ioErr w op (ledgerPath stagingBranch) = none)
    (hn : 0 < n) (hlen : ∀ h ∈ backlog logOut, h.length = n)
    (hnd : (backlog logOut).Nodup)
    (hdrop : (backlog logOut).drop j = x :: rest)
    (hinv : ∀ h ∈ backlog logOut,
      stringsContains (ledgerContent t.files stagingBranch) h = true ↔
        h ∈ (backlog logOut).take j) :
    (transferCommit sys repoPath workBranch stagingBranch t).1 = .returned ∧
    (transferCommit sys repoPath workBranch stagingBranch t).2.files (ledgerPath stagingBranch)
      = some (ledgerContent t.files stagingBranch ++ (x ++ "\n".toList)) ∧
    ∃ evs, (transferCommit sys repoPath workBranch stagingBranch t).2.trace = t.trace ++ evs ∧
      cherryPicked evs = [x] := by
  have hsl : (syncAndLog sys repoPath workBranch stagingBranch t).1 = logOut := by
    obtain ⟨-, r1, r2, w, evs, ho, -⟩ := syncAndLog_spec sys repoPath workBranch stagingBranch t
    rw [ho, hlog]
  have hbl : backlog logOut = (stringsSplit '\n' logOut).reverse := reverseInPlace_eq_reverse _
  have hback : (stringsSplit '\n'
      (syncAndLog sys repoPath workBranch stagingBranch t).1).head? ≠ some [] := by
    rw [hsl]
    cases hs : stringsSplit '\n' logOut with
    | nil => exact absurd hs (stringsSplit_ne_nil _ _)
    | cons first others =>
      intro h0
      have h1 : first = [] := by simpa using h0
      have h2 : first ∈ backlog logOut := by
        rw [hbl, hs]
        simp
      have := hlen first h2
      rw [h1] at this
      simp at this
      omega
  have hload := loadLedger_ok sys stagingBranch
    (syncAndLog sys repoPath workBranch stagingBranch t).2 hio
  rw [(syncAndLog_spec sys repoPath workBranch stagingBranch t).1] at hload
  obtain ⟨evs, r1, r2, r3, a1, acts2, ht, hacts, ha1, hm⟩ :=
    cycle_loaded sys repoPath workBranch stagingBranch t _ hback hload
  rw [hsl, ← hbl] at hm hacts
  obtain ⟨-, hdw⟩ := takeWhile_dropWhile_of_take (backlog logOut)
    (fun h => stringsContains (ledgerContent t.files stagingBranch) h) j hnd hinv
  rw [hdw, hdrop] at hm
  have hcpe : cherryPicked evs = cherryPicked acts2 := by
    have hcmd : commands evs = syncCommands workBranch stagingBranch ++ commands acts2 := by
      rw [← commands_actions, hacts, commands_append, commands_syncActions, commands_append,
        commands_append, commands_skips]
      rcases ha1 with ⟨-, h⟩ | ⟨-, -, h⟩ <;> rw [h] <;> rfl
    unfold cherryPicked
    rw [hcmd, List.filterMap_append]
    rfl
  have hobs := (ApplyFacts_obs hm).1
  obtain ⟨r4, w5, ⟨herr, -⟩ | ⟨-, w6, r6, r7, r8, hm⟩⟩ := hm
  · rw [hcp] at herr
    exact Bool.noConfusion herr
  · rcases hm with ⟨w, e, he, -⟩ | ⟨w, e, he, -⟩ | ⟨hout, hafter, -⟩
    · rw [hio] at he
      cases he
    · rw [hio] at he
      cases he
    · exact ⟨hout, hafter, evs, ht, by rw [hcpe, hobs]⟩

/-- Consecutive cycles on a chain of identifiers of which the first `j` are in
the ledger: `m` further cycles cherry-pick the next `m` identifiers in order. -/
theorem invocations_chain {σ : Type} (sys : Sys σ)
    (repoPath workBranch stagingBranch logOut : Str) (n : Nat)
    (hlog : ∀ w, (sys.exec w repoPath [] "git".toList
      ["log".toList, "--pretty=format:%H".toList,
        stagingBranch ++ "..".toList ++ workBranch]).1.stdout = logOut)
    (hcp : ∀ w h, stringsContains (sys.exec w repoPath [] "git".toList
      ["cherry-pick".toList, "-Xtheirs".toList, h]).1.stdout "error".toList = false)
    (hio : ∀ w op, sys.ioErr w op (ledgerPath stagingBranch) = none)
    (hn : 0 < n) (hlen : ∀ h ∈ backlog logOut, h.length = n)
    (hnd : (backlog logOut).Nodup) :
    ∀ (m j : Nat) (t : State σ), j + m ≤ (backlog logOut).length →
      (ledgerContent t.files stagingBranch = [] ∨
        (ledgerContent t.files stagingBranch).getLast? = some '\n') →
      (∀ h ∈ backlog logOut,
        stringsContains (ledgerContent t.files stagingBranch) h = true ↔
          h ∈ (backlog logOut).take j) →
      (invocations sys repoPath workBranch stagingBranch m t).1 = .returned ∧
      ledgerContent (invocations sys repoPath workBranch stagingBranch m t).2.files stagingBranch
        = ledgerContent t.files stagingBranch ++
            ledgerLines (((backlog logOut).drop j).take m) ∧
      ∃ evs, (invocations sys repoPath workBranch stagingBranch m t).2.trace = t.trace ++ evs ∧
        cherryPicked evs = ((backlog logOut).drop j).take m := by
  intro m
  induction m with
  | zero =>
    intro j t _ _ _
    exact ⟨rfl, by simp [invocations, ledgerLines], [], by simp [invocations], rfl⟩
  | succ m ih =>
    intro j t hj hwf hinv
    have hjlt : j < (backlog logOut).length := by omega
    obtain ⟨x, rest, hdrop⟩ : ∃ x rest, (backlog logOut).drop j = x :: rest := by
      cases hd : (backlog logOut).drop j with
      | nil =>
        have := congrArg List.length hd
        simp at this
        omega
      | cons x rest => exact ⟨x, rest, rfl⟩
    have hxmem : x ∈ backlog logOut :=
      List.mem_of_mem_drop (by rw [hdrop]; exact List.mem_cons_self _ _)
    have hdrop1 : (backlog logOut).drop (j + 1) = rest := by
      rw [← List.drop_drop, hdrop]
      rfl
    have htake1 : (backlog logOut).take (j + 1) = (backlog logOut).take j ++ [x] := by
      rw [List.take_succ, List.getElem?_eq_getElem hjlt]
      have : (backlog logOut)[j] = x := by
        have h0 := List.drop_eq_getElem_cons hjlt
        rw [hdrop] at h0
        exact ((List.cons.inj h0).1).symm
      rw [this]
      rfl
    obtain ⟨hout, hfile, evs1, ht1, hc1⟩ := cycle_step sys repoPath workBranch stagingBranch
      logOut n t j x rest hlog hcp hio hn hlen hnd hdrop hinv
    have hsplit : transferCommit sys repoPath workBranch stagingBranch t
        = (.returned, (transferCommit sys repoPath workBranch stagingBranch t).2) :=
      Prod.ext hout rfl
    have hcont : ledgerContent (transferCommit sys repoPath workBranch stagingBranch t).2.files
        stagingBranch = ledgerContent t.files stagingBranch ++ (x ++ "\n".toList) := by
      unfold ledgerContent at hfile ⊢
      rw [hfile]
      rfl
    have hnl : ∀ h ∈ backlog logOut, '\n' ∉ h := by
      intro h hh
      apply stringsSplit_no_sep '\n' logOut h
      have hbl : backlog logOut = (stringsSplit '\n' logOut).reverse :=
        reverseInPlace_eq_reverse _
      rw [hbl] at hh
      exact List.mem_reverse.mp hh
    have hwf1 : ledgerContent (transferCommit sys repoPath workBranch stagingBranch t).2.files
          stagingBranch = [] ∨
        (ledgerContent (transferCommit sys repoPath workBranch stagingBranch t).2.files
          stagingBranch).getLast? = some '\n' := by
      right
      rw [hcont]
      have hnl1 : "\n".toList = ['\n'] := rfl
      rw [hnl1, ← List.append_assoc, List.getLast?_concat]
    have hinv1 : ∀ h ∈ backlog logOut,
        stringsContains (ledgerContent
          (transferCommit sys repoPath workBranch stagingBranch t).2.files stagingBranch) h
            = true ↔ h ∈ (backlog logOut).take (j + 1) := by
      intro h hh
      rw [hcont, contains_ledger_step _ x h n hwf (hnl h hh) (hlen h hh) (hlen x hxmem) hn,
        hinv h hh, htake1, List.mem_append, List.mem_singleton]
    obtain ⟨hout2, hfile2, evs2, ht2, hc2⟩ := ih (j + 1)
      (transferCommit sys repoPath workBranch stagingBranch t).2 (by omega) hwf1 hinv1
    have hunf : invocations sys repoPath workBranch stagingBranch (m + 1) t
        = invocations sys repoPath workBranch stagingBranch m
            (transferCommit sys repoPath workBranch stagingBranch t).2 := by
      conv_lhs => unfold invocations
      rw [hsplit]
    rw [hunf]
    have htk : ((backlog logOut).drop j).take (m + 1) = x :: rest.take m := by
      rw [hdrop]
      rfl
    refine ⟨hout2, ?_, evs1 ++ evs2, ?_, ?_⟩
    · rw [hfile2, hcont, htk, hdrop1]
      simp [ledgerLines]
    · rw [ht2, ht1, List.append_assoc]
    · rw [cherryPicked_append, hc1, hc2, htk, hdrop1]
      rfl

/-! ## Auxiliary lemmas: the world after a cycle -/

theorem runCommand_world {σ : Type} (sys : Sys σ) (dir : Str) (env : List Str) (name : Str)
    (arg : List Str) (s : State σ) :
    (runCommand sys dir env name arg s).2.world = (sys.exec s.world dir env name arg).2 := by
  unfold runCommand
  cases h : (sys.exec s.world dir env name arg).1.err <;> simp [State.emit, h]

theorem loadLedger_world {σ : Type} (sys : Sys σ) (stagingBranch : Str) (s : State σ) :
    (loadLedger sys stagingBranch s).2.world = s.world := by
  unfold loadLedger readFile
  simp only [State.emit]
  cases hr : sys.ioErr s.world .read (ledgerPath stagingBranch) with
  | some e => rfl
  | none =>
    cases hf : s.files (ledgerPath stagingBranch) with
    | some c => simp [hf]
    | none =>
      simp only [hf, osCreate, State.emit]
      cases hc : sys.ioErr s.world .create (ledgerPath stagingBranch) <;> rfl

theorem lastCheckout_actions (t : List Event) : lastCheckout (actions t) = lastCheckout t := by
  unfold lastCheckout
  rw [execs_actions]

theorem lastCheckout_append_of_execs_nil (t u : List Event) (h : execs u = []) :
    lastCheckout (t ++ u) = lastCheckout t := by
  unfold lastCheckout
  rw [execs_append, h, List.append_nil]

theorem lastCheckout_append_of_some (t u : List Event) (x : List Str × CmdResult)
    (h : lastCheckout u = some x) : lastCheckout (t ++ u) = some x := by
  unfold lastCheckout at h ⊢
  rw [execs_append, List.filter_append, List.getLast?_append, h]
  rfl

theorem syncAndLog_world {σ : Type} (sys : Sys σ) (repoPath workBranch stagingBranch : Str)
    (s : State σ) :
    ∃ w evs,
      (syncAndLog sys repoPath workBranch stagingBranch s).2.trace = s.trace ++ evs ∧
      lastCheckout evs = some (["git".toList, "checkout".toList, workBranch],
        (sys.exec w repoPath [] "git".toList ["checkout".toList, workBranch]).1) ∧
      (syncAndLog sys repoPath workBranch stagingBranch s).2.world
        = (sys.exec (sys.exec w repoPath [] "git".toList ["checkout".toList, workBranch]).2
            repoPath [] "git".toList
            ["log".toList, "--pretty=format:%H".toList,
              stagingBranch ++ "..".toList ++ workBranch]).2 := by
  simp only [syncAndLog]
  obtain ⟨-, -, e1, t1, a1⟩ := runCommand_spec sys repoPath [] "git".toList ["fetch".toList] s
  generalize (runCommand sys repoPath [] "git".toList ["fetch".toList] s).2 = s1 at *
  obtain ⟨-, -, e2, t2, a2⟩ :=
    runCommand_spec sys repoPath [] "git".toList ["checkout".toList, workBranch] s1
  have w2 := runCommand_world sys repoPath [] "git".toList ["checkout".toList, workBranch] s1
  generalize (runCommand sys repoPath [] "git".toList ["checkout".toList, workBranch] s1).2
    = s2 at *
  obtain ⟨-, -, e3, t3, a3⟩ := runCommand_spec sys repoPath [] "git".toList
    ["log".toList, "--pretty=format:%H".toList, stagingBranch ++ "..".toList ++ workBranch] s2
  have w3 := runCommand_world sys repoPath [] "git".toList
    ["log".toList, "--pretty=format:%H".toList, stagingBranch ++ "..".toList ++ workBranch] s2
  refine ⟨s1.world, e1 ++ (e2 ++ e3), ?_, ?_, ?_⟩
  · rw [t3, t2, t1, List.append_assoc, List.append_assoc]
  · rw [← lastCheckout_actions, actions_append, actions_append, a1, a2, a3]
    rfl
  · rw [w3, w2]

theorem applyCommit_returned_world {σ : Type} (sys : Sys σ)
    (repoPath workBranch stagingBranch commitHash : Str) (s : State σ)
    (hret : (applyCommit sys repoPath workBranch stagingBranch commitHash s).1 = .returned) :
    ∃ w evs,
      (applyCommit sys repoPath workBranch stagingBranch commitHash s).2.trace
        = s.trace ++ evs ∧
      lastCheckout evs = some (["git".toList, "checkout".toList, workBranch],
        (sys.exec w repoPath [] "git".toList ["checkout".toList, workBranch]).1) ∧
      (applyCommit sys repoPath workBranch stagingBranch commitHash s).2.world
        = (sys.exec w repoPath [] "git".toList ["checkout".toList, workBranch]).2 := by
  simp only [applyCommit] at hret ⊢
  obtain ⟨-, -, e4, t4, a4⟩ :=
    runCommand_spec sys repoPath [] "git".toList ["checkout".toList, stagingBranch] s
  generalize (runCommand sys repoPath [] "git".toList ["checkout".toList, stagingBranch] s).2
    = s4 at *
  obtain ⟨o5, -, e5, t5, a5⟩ := runCommand_spec sys repoPath [] "git".toList
    ["cherry-pick".toList, "-Xtheirs".toList, commitHash] s4
  rw [o5] at hret ⊢
  generalize (runCommand sys repoPath [] "git".toList
    ["cherry-pick".toList, "-Xtheirs".toList, commitHash] s4).2 = s5 at *
  cases herr : stringsContains (sys.exec s4.world repoPath [] "git".toList
      ["cherry-pick".toList, "-Xtheirs".toList, commitHash]).1.stdout "error".toList with
  | true =>
    rw [herr] at hret
    simp only [if_true] at hret
    cases hret
  | false =>
    rw [herr] at hret
    simp only [Bool.false_eq_true, if_false] at hret ⊢
    obtain ⟨-, -, e6, t6, a6⟩ := runCommand_spec sys repoPath [] "git".toList
      ["commit".toList, "--amend".toList, "--no-edit".toList, "--date".toList,
        sys.now s5.world] s5
    generalize (runCommand sys repoPath [] "git".toList
      ["commit".toList, "--amend".toList, "--no-edit".toList, "--date".toList,
        sys.now s5.world] s5).2 = s6 at *
    obtain ⟨-, -, e7, t7, a7⟩ := runCommand_spec sys repoPath [] "git".toList
      ["push".toList, "--set-upstream".toList, "origin".toList, stagingBranch, ":".toList,
        stagingBranch] s6
    generalize (runCommand sys repoPath [] "git".toList
      ["push".toList, "--set-upstream".toList, "origin".toList, stagingBranch, ":".toList,
        stagingBranch] s6).2 = s7 at *
    obtain ⟨-, -, e8, t8, a8⟩ :=
      runCommand_spec sys repoPath [] "git".toList ["checkout".toList, workBranch] s7
    have w8 := runCommand_world sys repoPath [] "git".toList ["checkout".toList, workBranch] s7
    generalize (runCommand sys repoPath [] "git".toList ["checkout".toList, workBranch] s7).2
      = s8 at *
    have htr : s8.trace = s.trace ++ (e4 ++ (e5 ++ (e6 ++ (e7 ++ e8)))) := by
      rw [t8, t7, t6, t5, t4]
      simp only [List.append_assoc]
    have hlast : ∀ tail, execs tail = [] →
        lastCheckout ((e4 ++ (e5 ++ (e6 ++ (e7 ++ e8)))) ++ tail)
          = some (["git".toList, "checkout".toList, workBranch],
            (sys.exec s7.world repoPath [] "git".toList
              ["checkout".toList, workBranch]).1) := by
      intro tail htail
      rw [lastCheckout_append_of_execs_nil _ _ htail, ← lastCheckout_actions]
      simp only [actions_append, a4, a5, a6, a7, a8]
      rfl
    simp only [osOpenAppend, State.emit] at hret ⊢
    cases ho : sys.ioErr s8.world .openAppend (ledgerPath stagingBranch) with
    | some e =>
      rw [ho] at hret
      cases hret
    | none =>
      rw [ho] at hret
      simp only [] at hret ⊢
      cases hf : s8.files (ledgerPath stagingBranch) with
      | none =>
        rw [hf] at hret
        simp only [writeString, State.emit, State.setFile] at hret ⊢
        cases hw : sys.ioErr s8.world .write (ledgerPath stagingBranch) with
        | some e =>
          rw [hw] at hret
          cases hret
        | none =>
          simp only []
          refine ⟨s7.world, (e4 ++ (e5 ++ (e6 ++ (e7 ++ e8)))) ++
            [.println ("Transferred commit: ".toList ++ commitHash ++ "\n".toList),
              .openAppend (ledgerPath stagingBranch),
              .write (ledgerPath stagingBranch) (commitHash ++ "\n".toList)], ?_,
            hlast [.println ("Transferred commit: ".toList ++ commitHash ++ "\n".toList),
              .openAppend (ledgerPath stagingBranch),
              .write (ledgerPath stagingBranch) (commitHash ++ "\n".toList)] rfl, w8⟩
          rw [htr]
          simp only [List.append_assoc, List.singleton_append, List.cons_append,
            List.nil_append]
      | some c0 =>
        rw [hf] at hret
        simp only [writeString, State.emit, State.setFile] at hret ⊢
        cases hw : sys.ioErr s8.world .write (ledgerPath stagingBranch) with
        | some e =>
          rw [hw] at hret
          cases hret
        | none =>
          simp only []
          refine ⟨s7.world, (e4 ++ (e5 ++ (e6 ++ (e7 ++ e8)))) ++
            [.println ("Transferred commit: ".toList ++ commitHash ++ "\n".toList),
              .openAppend (ledgerPath stagingBranch),
              .write (ledgerPath stagingBranch) (commitHash ++ "\n".toList)], ?_,
            hlast [.println ("Transferred commit: ".toList ++ commitHash ++ "\n".toList),
              .openAppend (ledgerPath stagingBranch),
              .write (ledgerPath stagingBranch) (commitHash ++ "\n".toList)] rfl, w8⟩
          rw [htr]
          simp only [List.append_assoc, List.singleton_append, List.cons_append,
            List.nil_append]

theorem transferLoop_returned_world {σ : Type} (sys : Sys σ)
    (repoPath workBranch stagingBranch c : Str) (bl : List Str) :
    ∀ (s : State σ),
      (transferLoop sys repoPath workBranch stagingBranch c bl s).1 = .returned →
      ∃ evs, (transferLoop sys repoPath workBranch stagingBranch c bl s).2.trace
          = s.trace ++ evs ∧
        ((execs evs = [] ∧
            (transferLoop sys repoPath workBranch stagingBranch c bl s).2.world = s.world) ∨
          ∃ w, lastCheckout evs = some (["git".toList, "checkout".toList, workBranch],
              (sys.exec w repoPath [] "git".toList ["checkout".toList, workBranch]).1) ∧
            (transferLoop sys repoPath workBranch stagingBranch c bl s).2.world
              = (sys.exec w repoPath [] "git".toList ["checkout".toList, workBranch]).2) := by
  induction bl with
  | nil =>
    intro s _
    exact ⟨[], by simp [transferLoop], Or.inl ⟨rfl, rfl⟩⟩
  | cons h rest ih =>
    intro s hret
    cases hh : stringsContains c h with
    | true =>
      simp only [transferLoop, hh, if_true] at hret ⊢
      obtain ⟨evs, ht, hcase⟩ := ih _ hret
      refine ⟨[.println ("Skipping previously transferred commit: ".toList ++ h ++
        "\n".toList)] ++ evs, ?_, ?_⟩
      · rw [ht]
        simp [State.emit]
      · rcases hcase with ⟨hex, hw⟩ | ⟨w, hl, hw⟩
        · refine Or.inl ⟨?_, by rw [hw]; rfl⟩
          rw [execs_append, hex]
          rfl
        · exact Or.inr ⟨w, lastCheckout_append_of_some _ _ _ hl, hw⟩
    | false =>
      simp only [transferLoop, hh, Bool.false_eq_true, if_false] at hret ⊢
      obtain ⟨w, evs, ht, hl, hw⟩ :=
        applyCommit_returned_world sys repoPath workBranch stagingBranch h s hret
      exact ⟨evs, ht, Or.inr ⟨w, hl, hw⟩⟩

theorem transferCommit_returned_world {σ : Type} (sys : Sys σ)
    (repoPath workBranch stagingBranch : Str) (s : State σ)
    (hret : (transferCommit sys repoPath workBranch stagingBranch s).1 = .returned) :
    ∃ w evs,
      (transferCommit sys repoPath workBranch stagingBranch s).2.trace = s.trace ++ evs ∧
      lastCheckout evs = some (["git".toList, "checkout".toList, workBranch],
        (sys.exec w repoPath [] "git".toList ["checkout".toList, workBranch]).1) ∧
      ((transferCommit sys repoPath workBranch stagingBranch s).2.world
          = (sys.exec w repoPath [] "git".toList ["checkout".toList, workBranch]).2 ∨
        (transferCommit sys repoPath workBranch stagingBranch s).2.world
          = (sys.exec (sys.exec w repoPath [] "git".toList ["checkout".toList, workBranch]).2
              repoPath [] "git".toList
              ["log".toList, "--pretty=format:%H".toList,
                stagingBranch ++ "..".toList ++ workBranch]).2) := by
  obtain ⟨w2, e3, t3, l3, hw3⟩ := syncAndLog_world sys repoPath workBranch stagingBranch s
  simp only [transferCommit] at hret ⊢
  generalize (syncAndLog sys repoPath workBranch stagingBranch s).1 = logOut at *
  generalize (syncAndLog sys repoPath workBranch stagingBranch s).2 = s3 at *
  by_cases hcond : (stringsSplit '\n' logOut).length = 0 ∨
      (stringsSplit '\n' logOut).head? = some []
  · rw [if_pos hcond]
    refine ⟨w2, e3 ++ [.println "No new commits to transfer.\n".toList], ?_, ?_,
      Or.inr hw3⟩
    · simp [State.emit, t3]
    · rw [lastCheckout_append_of_execs_nil e3
        [.println "No new commits to transfer.\n".toList] rfl, l3]
  · rw [if_neg hcond] at hret ⊢
    obtain ⟨el, tl, hl⟩ := loadLedger_spec sys stagingBranch s3
    have hwl := loadLedger_world sys stagingBranch s3
    cases hres : (loadLedger sys stagingBranch s3).1 with
    | none =>
      have hsplit : loadLedger sys stagingBranch s3
          = (none, (loadLedger sys stagingBranch s3).2) := Prod.ext hres rfl
      rw [hsplit] at hret
      cases hret
    | some c =>
      have hsplit : loadLedger sys stagingBranch s3
          = (some c, (loadLedger sys stagingBranch s3).2) := Prod.ext hres rfl
      rw [hsplit] at hret ⊢
      simp only [] at hret ⊢
      rw [hres] at hl
      have hexl : execs el = [] := by
        rw [← execs_actions]
        rcases (LoadFacts_some hl).2 with ⟨-, h⟩ | ⟨-, -, h⟩ <;> rw [h] <;> rfl
      obtain ⟨e2, t2, hcase⟩ := transferLoop_returned_world sys repoPath workBranch
        stagingBranch c _ _ hret
      have htr : (transferLoop sys repoPath workBranch stagingBranch c
          (reverseInPlace (stringsSplit '\n' logOut)) (loadLedger sys stagingBranch s3).2).2.trace
          = s.trace ++ (e3 ++ (el ++ e2)) := by
        rw [t2, tl, t3, List.append_assoc, List.append_assoc]
      rcases hcase with ⟨hex, hw⟩ | ⟨w, hlc, hw⟩
      · refine ⟨w2, e3 ++ (el ++ e2), htr, ?_, Or.inr (by rw [hw, hwl, hw3])⟩
        rw [lastCheckout_append_of_execs_nil _ _ (by rw [execs_append, hexl, hex]; rfl), l3]
      · exact ⟨w, e3 ++ (el ++ e2), htr,
          lastCheckout_append_of_some _ _ _ (lastCheckout_append_of_some _ _ _ hlc),
          Or.inl hw⟩

theorem last_checkout_command {σ : Type} (sys : Sys σ)
    (repoPath workBranch stagingBranch : Str) (s : State σ)
    (hret : (transferCommit sys repoPath workBranch stagingBranch s).1 = .returned) :
    ∃ evs, (transferCommit sys repoPath workBranch stagingBranch s).2.trace = s.trace ++ evs ∧
      ((commands evs).filter isCheckout).getLast?
        = some ["git".toList, "checkout".toList, workBranch] := by
  obtain ⟨evs, ht, r1, r2, w3, rest, -, hacts, hcase⟩ :=
    transferCommit_spec sys repoPath workBranch stagingBranch s
  refine ⟨evs, ht, ?_⟩
  rw [← commands_actions, hacts, commands_append, commands_syncActions, List.filter_append]
  have hsync : (syncCommands workBranch stagingBranch).filter isCheckout
      = [["git".toList, "checkout".toList, workBranch]] := rfl
  rw [hsync]
  rw [hret] at hcase
  rcases hcase with ⟨-, -, -, hrest⟩ | ⟨-, a1, ⟨-, hex, -⟩ | ⟨c, a2, hres, hload, hloop, hrest⟩⟩
  · rw [hrest]
    rfl
  · cases hex
  · obtain ⟨-, ha1⟩ := LoadFacts_some hload
    obtain ⟨acts2, ha2, hm⟩ := hloop
    have hpre : commands (a1 ++ a2) = commands acts2 := by
      rw [commands_append, ha2, commands_append, commands_skips]
      rcases ha1 with ⟨-, h⟩ | ⟨-, -, h⟩ <;> rw [h] <;> rfl
    rw [hrest, hpre]
    cases hd : List.dropWhile (fun h => stringsContains c h)
        (stringsSplit '\n' (syncAndLog sys repoPath workBranch stagingBranch s).1).reverse with
    | nil =>
      rw [hd] at hm
      rw [hm.2.2]
      rfl
    | cons h tl =>
      rw [hd] at hm
      obtain ⟨r4, w5, ⟨-, hex, -⟩ | ⟨-, w6, r6, r7, r8, hm⟩⟩ := hm
      · cases hex
      · rcases hm with ⟨_, _, _, hex, -⟩ | ⟨_, _, _, hex, -⟩ | ⟨-, -, hacts2⟩
        · cases hex
        · cases hex
        · rw [hacts2]
          rfl

/-! ## The claims -/

/-- C1: in a cycle with a backlog (first line of the `git log` output non-empty)
that reads the ledger content `c`, `transferCommit` runs `git cherry-pick` for at
most one commit, namely the first backlog entry, oldest first, that is not a
substring of `c` (for none when there is no such entry); the entries before it
are each reported as skipped, and the entries after it play no part: the loop
behaves as on the backlog cut off after the selected entry. -/
theorem selects_oldest_untransferred {σ : Type} (sys : Sys σ)
    (repoPath workBranch stagingBranch : Str) (s : State σ) (c : Str)
    (hback : (stringsSplit '\n'
      (syncAndLog sys repoPath workBranch stagingBranch s).1).head? ≠ some [])
    (hload : (loadLedger sys stagingBranch
      (syncAndLog sys repoPath workBranch stagingBranch s).2).1 = some c) :
    ∃ evs, (transferCommit sys repoPath workBranch stagingBranch s).2.trace = s.trace ++ evs ∧
      cherryPicked evs
        = ((backlog (syncAndLog sys repoPath workBranch stagingBranch s).1).find?
            (fun h => !stringsContains c h)).toList ∧
      (commands evs).filter isCherryPick
        = (cherryPicked evs).map
            (fun h => ["git".toList, "cherry-pick".toList, "-Xtheirs".toList, h]) ∧
      (∃ tail, printed evs
          = ((backlog (syncAndLog sys repoPath workBranch stagingBranch s).1).takeWhile
              (fun h => stringsContains c h)).map skipLine ++ tail ∧
        (tail = [] ∨
          tail = ["Cherry-pick failed, please resolve conflicts manually.\n".toList] ∨
          ∃ h, tail = ["Transferred commit: ".toList ++ h ++ "\n".toList] ∧
            cherryPicked evs = [h])) ∧
      (∀ h post (s0 : State σ),
        (backlog (syncAndLog sys repoPath workBranch stagingBranch s).1).dropWhile
            (fun h => stringsContains c h) = h :: post →
        transferLoop sys repoPath workBranch stagingBranch c
            (backlog (syncAndLog sys repoPath workBranch stagingBranch s).1) s0
          = transferLoop sys repoPath workBranch stagingBranch c
              ((backlog (syncAndLog sys repoPath workBranch stagingBranch s).1).takeWhile
                (fun h => stringsContains c h) ++ [h]) s0) := by
  simp only [backlog, reverseInPlace_eq_reverse]
  obtain ⟨evs, r1, r2, r3, a1, acts2, ht, hacts, ha1, hm⟩ :=
    cycle_loaded sys repoPath workBranch stagingBranch s c hback hload
  have hcmd : commands evs = syncCommands workBranch stagingBranch ++ commands acts2 := by
    rw [← commands_actions, hacts, commands_append, commands_syncActions, commands_append,
      commands_append, commands_skips]
    rcases ha1 with ⟨-, h⟩ | ⟨-, -, h⟩ <;> rw [h] <;> rfl
  have hcp : cherryPicked evs = cherryPicked acts2 := by
    unfold cherryPicked
    rw [hcmd, List.filterMap_append]
    rfl
  have hfil : (commands evs).filter isCherryPick = (commands acts2).filter isCherryPick := by
    rw [hcmd, List.filter_append]
    rfl
  have hpr : printed evs = ((stringsSplit '\n'
      (syncAndLog sys repoPath workBranch stagingBranch s).1).reverse.takeWhile
        (fun h => stringsContains c h)).map skipLine ++ printed acts2 := by
    rw [← printed_actions, hacts, printed_append, printed_syncActions, printed_append,
      printed_append, printed_skips]
    rcases ha1 with ⟨-, h⟩ | ⟨-, -, h⟩ <;> rw [h] <;> rfl
  refine ⟨evs, ht, ?_, ?_, ⟨printed acts2, hpr, ?_⟩, ?_⟩
  · rw [hcp, List.find?_not_eq_head?_dropWhile]
    cases hd : List.dropWhile (fun h => stringsContains c h)
        (stringsSplit '\n' (syncAndLog sys repoPath workBranch stagingBranch s).1).reverse with
    | nil =>
      rw [hd] at hm
      rw [hm.2.2]
      rfl
    | cons h tl =>
      rw [hd] at hm
      rw [(ApplyFacts_obs hm).1]
      rfl
  · rw [hcp, hfil]
    cases hd : List.dropWhile (fun h => stringsContains c h)
        (stringsSplit '\n' (syncAndLog sys repoPath workBranch stagingBranch s).1).reverse with
    | nil =>
      rw [hd] at hm
      rw [hm.2.2]
      rfl
    | cons h tl =>
      rw [hd] at hm
      rw [(ApplyFacts_obs hm).1, (ApplyFacts_obs hm).2.1]
      rfl
  · cases hd : List.dropWhile (fun h => stringsContains c h)
        (stringsSplit '\n' (syncAndLog sys repoPath workBranch stagingBranch s).1).reverse with
    | nil =>
      rw [hd] at hm
      rw [hm.2.2]
      exact Or.inl rfl
    | cons h tl =>
      rw [hd] at hm
      rcases (ApplyFacts_obs hm).2.2 with hp | hp
      · exact Or.inr (Or.inl hp)
      · exact Or.inr (Or.inr ⟨h, hp, by rw [hcp, (ApplyFacts_obs hm).1]⟩)
  · intro h post s0 hd
    exact transferLoop_stops sys repoPath workBranch stagingBranch c _ h post s0 hd

/-- An instance of C1: with an empty ledger the first cycle of the
demonstration world cherry-picks `c1`, the oldest identifier. -/
theorem selects_oldest_untransferred_witness :
    (loadLedger demoSys demoStaging (syncAndLog demoSys demoRepo demoWork
        demoStaging demoState).2).1 = some [] ∧
    ∃ evs, (transferCommit demoSys demoRepo demoWork demoStaging demoState).2.trace
        = demoState.trace ++ evs ∧
      cherryPicked evs = ["c1".toList] :=
  ⟨by decide, by
    obtain ⟨evs, ht, hc, -⟩ :=
      selects_oldest_untransferred demoSys demoRepo demoWork demoStaging demoState []
        (by decide) (by decide)
    exact ⟨evs, ht, hc.trans (by decide)⟩⟩

/-- C2, as amended: let `git log` print the same `N` identifiers in every cycle,
all distinct, of one positive length (as commit hashes are), none of them
contained in the ledger, and let the ledger content at the start be empty or end
in a newline; let no cherry-pick output contain "error" and no ledger file
operation fail.  Then for every `k ≤ N`, `k`
consecutive invocations of `transferCommit` all return normally and cherry-pick
exactly the `k` oldest commits, oldest first: one per invocation, the `k`-th
invocation the `k`-th oldest; and the ledger gains those identifiers in that
order. -/
theorem chain_transferred_in_order {σ : Type} (sys : Sys σ)
    (repoPath workBranch stagingBranch logOut : Str) (n : Nat) (s : State σ)
    (hlog : ∀ w, (sys.exec w repoPath [] "git".toList
      ["log".toList, "--pretty=format:%H".toList,
        stagingBranch ++ "..".toList ++ workBranch]).1.stdout = logOut)
    (hcp : ∀ w h, stringsContains (sys.exec w repoPath [] "git".toList
      ["cherry-pick".toList, "-Xtheirs".toList, h]).1.stdout "error".toList = false)
    (hio : ∀ w op, sys.ioErr w op (ledgerPath stagingBranch) = none)
    (hn : 0 < n) (hlen : ∀ h ∈ backlog logOut, h.length = n)
    (hnd : (backlog logOut).Nodup)
    (hwf : ledgerContent s.files stagingBranch = [] ∨
      (ledgerContent s.files stagingBranch).getLast? = some '\n')
    (habs : ∀ h ∈ backlog logOut,
      stringsContains (ledgerContent s.files stagingBranch) h = false)
    (k : Nat) (hk : k ≤ (backlog logOut).length) :
    (invocations sys repoPath workBranch stagingBranch k s).1 = .returned ∧
    ledgerContent (invocations sys repoPath workBranch stagingBranch k s).2.files stagingBranch
      = ledgerContent s.files stagingBranch ++ ledgerLines ((backlog logOut).take k) ∧
    ∃ evs, (invocations sys repoPath workBranch stagingBranch k s).2.trace = s.trace ++ evs ∧
      cherryPicked evs = (backlog logOut).take k := by
  have hinv : ∀ h ∈ backlog logOut,
      stringsContains (ledgerContent s.files stagingBranch) h = true ↔
        h ∈ (backlog logOut).take 0 := by
    intro h hh
    rw [habs h hh]
    simp
  have := invocations_chain sys repoPath workBranch stagingBranch logOut n hlog hcp hio hn hlen
    hnd k 0 s (by omega) hwf hinv
  simpa using this

/-- An instance of C2: three cycles of the demonstration world transfer `c1`,
`c2`, `c3` in this order. -/
theorem chain_transferred_in_order_witness :
    backlog "c3\nc2\nc1".toList = ["c1".toList, "c2".toList, "c3".toList] ∧
    (invocations demoSys demoRepo demoWork demoStaging 3 demoState).1 = .returned ∧
    ledgerContent (invocations demoSys demoRepo demoWork demoStaging 3 demoState).2.files
        demoStaging
      = ledgerContent demoState.files demoStaging ++
          ledgerLines ((backlog "c3\nc2\nc1".toList).take 3) ∧
    ∃ evs, (invocations demoSys demoRepo demoWork demoStaging 3 demoState).2.trace
        = demoState.trace ++ evs ∧
      cherryPicked evs = (backlog "c3\nc2\nc1".toList).take 3 :=
  ⟨by decide,
    chain_transferred_in_order demoSys demoRepo demoWork demoStaging "c3\nc2\nc1".toList 2 demoState
      (fun _ => rfl) (fun _ _ => rfl) (fun _ _ => rfl) (by decide) (by decide) (by decide)
      (Or.inl rfl) (by decide) 3 (by decide)⟩

/-- C2 fails as stated: two distinct 40-digit identifiers, neither contained in
the ledger, whose single line is truncated (the first 39 digits of `hashNew`, no
newline).  The first cycle cherry-picks `hashOld` and appends it right behind
the truncated line, after which the ledger text contains `hashNew`; the second
and the third cycle skip both identifiers, and `hashNew` is never
cherry-picked. -/
theorem chain_broken_by_truncated_ledger :
    backlog (hashNew ++ "\n".toList ++ hashOld) = [hashOld, hashNew] ∧
    hashOld ≠ hashNew ∧ hashOld.length = 40 ∧ hashNew.length = 40 ∧
    stringsContains (ledgerContent truncState.files demoStaging) hashOld = false ∧
    stringsContains (ledgerContent truncState.files demoStaging) hashNew = false ∧
    (invocations truncSys demoRepo demoWork demoStaging 2 truncState).1 = .returned ∧
    cherryPicked (invocations truncSys demoRepo demoWork demoStaging 2 truncState).2.trace
      = [hashOld] ∧
    cherryPicked (invocations truncSys demoRepo demoWork demoStaging 3 truncState).2.trace
      = [hashOld] ∧
    ledgerContent (invocations truncSys demoRepo demoWork demoStaging 2 truncState).2.files
        demoStaging
      = hashNew.take 39 ++ hashOld ++ "\n".toList := by
  decide

/-- C3: in every cycle in which a `git cherry-pick` was run and its output
contains "error", `transferCommit` ends the process with exit code 1; the ledger
content is what it was before the cycle (an existing ledger file is untouched);
no amend and no push is run (the commands after the log are the checkout of the
staging branch and the cherry-pick only); and the only file operations are the
reading of the ledger and, when it did not exist, its creation: nothing is
appended. -/
theorem conflict_halts {σ : Type} (sys : Sys σ) (repoPath workBranch stagingBranch : Str)
    (s : State σ) (evs : List Event)
    (htrace : (transferCommit sys repoPath workBranch stagingBranch s).2.trace = s.trace ++ evs)
    (cr : List Str × CmdResult) (hmem : cr ∈ execs evs) (hcp : isCherryPick cr.1 = true)
    (herr : stringsContains cr.2.stdout "error".toList = true) :
    (transferCommit sys repoPath workBranch stagingBranch s).1 = .exited 1 ∧
    ledgerContent (transferCommit sys repoPath workBranch stagingBranch s).2.files stagingBranch
      = ledgerContent s.files stagingBranch ∧
    (∀ c0, s.files (ledgerPath stagingBranch) = some c0 →
      (transferCommit sys repoPath workBranch stagingBranch s).2.files (ledgerPath stagingBranch)
        = some c0) ∧
    (∃ h, commands evs = syncCommands workBranch stagingBranch ++
      [["git".toList, "checkout".toList, stagingBranch],
        ["git".toList, "cherry-pick".toList, "-Xtheirs".toList, h]]) ∧
    (∀ c ∈ commands evs, isAmend c = false ∧ isPush c = false) ∧
    (∀ e ∈ fileOps evs, e = .readFile (ledgerPath stagingBranch) ∨
      e = .create (ledgerPath stagingBranch)) := by
  obtain ⟨evs1, ht, r1, r2, w3, rest, -, hacts, hcase⟩ :=
    transferCommit_spec sys repoPath workBranch stagingBranch s
  have hevs : evs1 = evs := List.append_cancel_left (ht.symm.trans htrace)
  subst hevs
  rw [← execs_actions, hacts, execs_append, List.mem_append] at hmem
  have hrestmem : cr ∈ execs rest := by
    rcases hmem with h | h
    · have := execs_syncActions_not_cherryPick _ _ _ _ _ _ cr h
      rw [this] at hcp
      exact Bool.noConfusion hcp
    · exact h
  rcases hcase with ⟨-, -, -, hrest⟩ | ⟨-, a1, ⟨-, -, hl, hrest⟩ | ⟨c, a2, -, hl, hloop, hrest⟩⟩
  · rw [hrest] at hrestmem
    simp [execs] at hrestmem
  · rw [hrest, (LoadFacts_none hl).2.1] at hrestmem
    simp at hrestmem
  · obtain ⟨-, ha1⟩ := LoadFacts_some hl
    obtain ⟨acts2, ha2, hm⟩ := hloop
    have hexa1 : execs a1 = [] := by
      rcases ha1 with ⟨-, h⟩ | ⟨-, -, h⟩ <;> rw [h] <;> rfl
    have hfoa1 : ∀ e ∈ fileOps a1, e = .readFile (ledgerPath stagingBranch) ∨
        e = .create (ledgerPath stagingBranch) := by
      rcases ha1 with ⟨-, h⟩ | ⟨-, -, h⟩ <;> rw [h] <;> simp [fileOps]
    have hcma1 : commands a1 = [] := by
      rw [commands_eq_execs, hexa1]
      rfl
    rw [hrest, ha2, execs_append, execs_append, hexa1, execs_skips, List.nil_append,
      List.nil_append] at hrestmem
    cases hd : List.dropWhile (fun h => stringsContains c h)
        (stringsSplit '\n' (syncAndLog sys repoPath workBranch stagingBranch s).1).reverse with
    | nil =>
      rw [hd] at hm
      rw [hm.2.2] at hrestmem
      simp [execs] at hrestmem
    | cons h tl =>
      rw [hd] at hm
      obtain ⟨hout, hafter, hfo, hcm⟩ := ApplyFacts_conflict hm cr hrestmem hcp herr
      have hc : commands evs1 = syncCommands workBranch stagingBranch ++
          [["git".toList, "checkout".toList, stagingBranch],
            ["git".toList, "cherry-pick".toList, "-Xtheirs".toList, h]] := by
        rw [← commands_actions, hacts, hrest, ha2, commands_append, commands_syncActions,
          commands_append, commands_append, commands_skips, hcma1, hcm]
        rfl
      refine ⟨hout, ?_, ?_, ⟨h, hc⟩, ?_, ?_⟩
      · unfold ledgerContent
        rw [hafter]
        rcases ha1 with ⟨hb, -⟩ | ⟨hb, hc0, -⟩
        · rw [hb]
        · rw [hb, hc0]
          rfl
      · intro c0 hc0
        rw [hafter]
        rcases ha1 with ⟨hb, -⟩ | ⟨hb, -, -⟩
        · rw [← hb, hc0]
        · rw [hb] at hc0
          cases hc0
      · rw [hc]
        intro c' hc'
        rw [List.mem_append] at hc'
        rcases hc' with h1 | h1
        · exact (syncCommands_not_apply workBranch stagingBranch c' h1).2
        · simp only [List.mem_cons, List.mem_singleton, List.not_mem_nil, or_false] at h1
          rcases h1 with rfl | rfl <;> exact ⟨rfl, rfl⟩
      · rw [← fileOps_actions, hacts, hrest, ha2, fileOps_append, fileOps_syncActions,
          fileOps_append, fileOps_append, fileOps_skips, hfo]
        simpa using hfoa1

/-- An instance of C3: the cherry-pick of `c1` prints an error and the process
exits with code 1. -/
theorem conflict_halts_witness :
    ((["git".toList, "cherry-pick".toList, "-Xtheirs".toList, "c1".toList],
        (⟨"error: could not apply c1".toList, [], some "exit status 1".toList⟩ : CmdResult))
      ∈ execs (transferCommit conflictSys demoRepo demoWork demoStaging demoState).2.trace) ∧
    (transferCommit conflictSys demoRepo demoWork demoStaging demoState).1 = .exited 1 :=
  ⟨by decide,
    (conflict_halts conflictSys demoRepo demoWork demoStaging demoState
      (transferCommit conflictSys demoRepo demoWork demoStaging demoState).2.trace rfl
      (["git".toList, "cherry-pick".toList, "-Xtheirs".toList, "c1".toList],
        ⟨"error: could not apply c1".toList, [], some "exit status 1".toList⟩)
      (by decide) (by decide) (by decide)).1⟩

/-- C4, as amended: in every cycle in which the ledger content changes, a
`git push` of the staging branch was run, and had ended, before the identifier
was appended; the append is the last event of the cycle and adds the identifier
and a newline.  Whether that push succeeded plays no part: `runCommand` returns
only the captured output. -/
theorem ledger_append_after_push {σ : Type} (sys : Sys σ)
    (repoPath workBranch stagingBranch : Str) (s : State σ) (evs : List Event)
    (htrace : (transferCommit sys repoPath workBranch stagingBranch s).2.trace = s.trace ++ evs)
    (hgain : ledgerContent (transferCommit sys repoPath workBranch stagingBranch s).2.files
        stagingBranch ≠ ledgerContent s.files stagingBranch) :
    ∃ pre r h,
      actions evs = pre ++ [.write (ledgerPath stagingBranch) (h ++ "\n".toList)] ∧
      evGit repoPath ["push".toList, "--set-upstream".toList, "origin".toList, stagingBranch,
        ":".toList, stagingBranch] r ∈ pre ∧
      ledgerContent (transferCommit sys repoPath workBranch stagingBranch s).2.files
        stagingBranch = ledgerContent s.files stagingBranch ++ (h ++ "\n".toList) := by
  obtain ⟨evs1, ht, r1, r2, w3, rest, -, hacts, hcase⟩ :=
    transferCommit_spec sys repoPath workBranch stagingBranch s
  have hevs : evs1 = evs := List.append_cancel_left (ht.symm.trans htrace)
  subst hevs
  unfold ledgerContent at hgain ⊢
  rcases hcase with ⟨-, -, hafter, -⟩ | ⟨-, a1, ⟨-, -, hl, -⟩ | ⟨c, a2, -, hl, hloop, hrest⟩⟩
  · rw [hafter] at hgain
    exact absurd rfl hgain
  · rw [(LoadFacts_none hl).1] at hgain
    exact absurd rfl hgain
  · obtain ⟨-, ha1⟩ := LoadFacts_some hl
    obtain ⟨acts2, ha2, hm⟩ := hloop
    have hbefore : (s.files (ledgerPath stagingBranch)).getD [] = c := by
      rcases ha1 with ⟨hb, -⟩ | ⟨hb, hc0, -⟩
      · rw [hb]
        rfl
      · rw [hb, hc0]
        rfl
    rw [hbefore] at hgain ⊢
    cases hd : List.dropWhile (fun h => stringsContains c h)
        (stringsSplit '\n' (syncAndLog sys repoPath workBranch stagingBranch s).1).reverse with
    | nil =>
      rw [hd] at hm
      rw [hm.2.1] at hgain
      exact absurd rfl hgain
    | cons h tl =>
      rw [hd] at hm
      obtain ⟨r4, w5, ⟨-, -, hafter, -⟩ | ⟨-, w6, r6, r7, r8, hm⟩⟩ := hm
      · rw [hafter] at hgain
        exact absurd rfl hgain
      · rcases hm with ⟨_, _, -, -, hafter, -⟩ | ⟨_, _, -, -, hafter, -⟩ |
          ⟨-, hafter, hacts2⟩
        · rw [hafter] at hgain
          exact absurd rfl hgain
        · rw [hafter] at hgain
          exact absurd rfl hgain
        · refine ⟨syncActions repoPath workBranch stagingBranch r1 r2
              (sys.exec w3 repoPath [] "git".toList
                ["log".toList, "--pretty=format:%H".toList,
                  stagingBranch ++ "..".toList ++ workBranch]).1 ++ (a1 ++
              (List.map (fun h => Event.println (skipLine h))
                (List.takeWhile (fun h => stringsContains c h)
                  (stringsSplit '\n'
                    (syncAndLog sys repoPath workBranch stagingBranch s).1).reverse) ++
              applyPrefix repoPath workBranch stagingBranch h r4
                (sys.exec w5 repoPath [] "git".toList
                  ["cherry-pick".toList, "-Xtheirs".toList, h]).1 r6 r7 r8 (sys.now w6))),
            r7, h, ?_, ?_, by rw [hafter]; rfl⟩
          · rw [hacts, hrest, ha2, hacts2]
            simp only [List.append_assoc]
          · simp [applyPrefix]

/-- An instance of C4 as amended: the first cycle of the demonstration world
changes the ledger, and a push precedes the append. -/
theorem ledger_append_after_push_witness :
    ledgerContent (transferCommit demoSys demoRepo demoWork demoStaging demoState).2.files
        demoStaging
      ≠ ledgerContent demoState.files demoStaging ∧
    ∃ pre r h,
      actions (transferCommit demoSys demoRepo demoWork demoStaging demoState).2.trace
        = pre ++ [.write (ledgerPath demoStaging) (h ++ "\n".toList)] ∧
      evGit ".".toList ["push".toList, "--set-upstream".toList, "origin".toList,
        demoStaging, ":".toList, demoStaging] r ∈ pre ∧
      ledgerContent (transferCommit demoSys demoRepo demoWork demoStaging demoState).2.files
          demoStaging
        = ledgerContent demoState.files demoStaging ++ (h ++ "\n".toList) :=
  ⟨by decide,
    ledger_append_after_push demoSys demoRepo demoWork demoStaging demoState
      (transferCommit demoSys demoRepo demoWork demoStaging demoState).2.trace rfl (by decide)⟩

/-- C4 fails as stated: in the first cycle of the demonstration world the push
fails (`cmd.Run()` returns "exit status 1"), no push succeeds, and the ledger
still gains the entry `c1`. -/
theorem ledger_append_despite_failed_push :
    pushSucceeded (transferCommit demoSys demoRepo demoWork demoStaging demoState).2.trace = false ∧
    (["git".toList, "push".toList, "--set-upstream".toList, "origin".toList,
        demoStaging, ":".toList, demoStaging],
      (⟨[], "rejected".toList, some "exit status 1".toList⟩ : CmdResult))
      ∈ execs (transferCommit demoSys demoRepo demoWork demoStaging demoState).2.trace ∧
    demoState.files (ledgerPath demoStaging) = none ∧
    (transferCommit demoSys demoRepo demoWork demoStaging demoState).2.files
        (ledgerPath demoStaging)
      = some "c1\n".toList ∧
    (transferCommit demoSys demoRepo demoWork demoStaging demoState).1 = .returned := by
  decide

/-- C5: in a cycle whose backlog holds at least two identifiers not contained in
the ledger, whose cherry-pick output does not contain "error" and which hits no
fatal file error (no `log.Fatal`), `transferCommit` returns normally and the ledger content
afterwards is the content before followed by the selected identifier (the first
backlog entry not contained in the ledger) and a newline; exactly one write is
made, of that identifier and a newline, to the ledger file. -/
theorem one_entry_per_cycle {σ : Type} (sys : Sys σ) (repoPath workBranch stagingBranch : Str)
    (s : State σ) (evs : List Event)
    (htrace : (transferCommit sys repoPath workBranch stagingBranch s).2.trace = s.trace ++ evs)
    (hback : (stringsSplit '\n'
      (syncAndLog sys repoPath workBranch stagingBranch s).1).head? ≠ some [])
    (h2 : 2 ≤ ((backlog (syncAndLog sys repoPath workBranch stagingBranch s).1).filter
      (fun h => !stringsContains (ledgerContent s.files stagingBranch) h)).length)
    (hcp : ∀ cr ∈ execs evs, isCherryPick cr.1 = true →
      stringsContains cr.2.stdout "error".toList = false)
    (hfatal : ∀ e ∈ evs, isFatal e = false) :
    (transferCommit sys repoPath workBranch stagingBranch s).1 = .returned ∧
    ∃ h, (backlog (syncAndLog sys repoPath workBranch stagingBranch s).1).find?
        (fun h => !stringsContains (ledgerContent s.files stagingBranch) h) = some h ∧
      ledgerContent (transferCommit sys repoPath workBranch stagingBranch s).2.files
        stagingBranch = ledgerContent s.files stagingBranch ++ (h ++ "\n".toList) ∧
      (transferCommit sys repoPath workBranch stagingBranch s).2.files (ledgerPath stagingBranch)
        = some (ledgerContent s.files stagingBranch ++ (h ++ "\n".toList)) ∧
      ∃ a1, fileOps evs = a1 ++ [.openAppend (ledgerPath stagingBranch),
          .write (ledgerPath stagingBranch) (h ++ "\n".toList)] ∧
        (a1 = [.readFile (ledgerPath stagingBranch)] ∨
          a1 = [.readFile (ledgerPath stagingBranch), .create (ledgerPath stagingBranch)]) := by
  simp only [backlog, reverseInPlace_eq_reverse] at h2 ⊢
  obtain ⟨evs1, ht, r1, r2, w3, rest, -, hacts, hcase⟩ :=
    transferCommit_spec sys repoPath workBranch stagingBranch s
  have hevs : evs1 = evs := List.append_cancel_left (ht.symm.trans htrace)
  subst hevs
  rcases hcase with ⟨hh, -⟩ | ⟨-, a1, ⟨-, -, hl, hrest⟩ | ⟨c, a2, -, hl, hloop, hrest⟩⟩
  · exact absurd hh hback
  · exfalso
    obtain ⟨e, he⟩ := (LoadFacts_none hl).2.2.1
    refine Bool.noConfusion (hfatal (.fatal e) (mem_of_mem_actions ?_))
    rw [hacts, hrest]
    exact List.mem_append_right _ he
  · obtain ⟨-, ha1⟩ := LoadFacts_some hl
    obtain ⟨acts2, ha2, hm⟩ := hloop
    have hbefore : ledgerContent s.files stagingBranch = c := by
      unfold ledgerContent
      rcases ha1 with ⟨hb, -⟩ | ⟨hb, hc0, -⟩
      · rw [hb]
        rfl
      · rw [hb, hc0]
        rfl
    rw [hbefore] at h2 ⊢
    have hfoa1 : fileOps a1 = a1 ∧ (a1 = [.readFile (ledgerPath stagingBranch)] ∨
        a1 = [.readFile (ledgerPath stagingBranch), .create (ledgerPath stagingBranch)]) := by
      rcases ha1 with ⟨-, h⟩ | ⟨-, -, h⟩
      · rw [h]
        exact ⟨rfl, Or.inl rfl⟩
      · rw [h]
        exact ⟨rfl, Or.inr rfl⟩
    rw [List.find?_not_eq_head?_dropWhile]
    cases hd : List.dropWhile (fun h => stringsContains c h)
        (stringsSplit '\n' (syncAndLog sys repoPath workBranch stagingBranch s).1).reverse with
    | nil =>
      exfalso
      have hall := List.dropWhile_eq_nil_iff.mp hd
      have hnil : List.filter (fun h => !stringsContains c h)
          (stringsSplit '\n' (syncAndLog sys repoPath workBranch stagingBranch s).1).reverse
          = [] := by
        rw [List.filter_eq_nil_iff]
        intro a ha
        simp [hall a ha]
      rw [hnil] at h2
      simp at h2
    | cons h tl =>
      rw [hd] at hm
      have hmemacts : ∀ e ∈ acts2, e ∈ evs1 := by
        intro e he
        refine mem_of_mem_actions ?_
        rw [hacts, hrest, ha2]
        exact List.mem_append_right _ (List.mem_append_right _ (List.mem_append_right _ he))
      have hexecs : ∀ cr ∈ execs acts2, cr ∈ execs evs1 := by
        intro cr hcr
        rw [← execs_actions, hacts, hrest, ha2, execs_append, execs_append, execs_append]
        exact List.mem_append_right _ (List.mem_append_right _ (List.mem_append_right _ hcr))
      obtain ⟨r4, w5, ⟨herr, -, -, hacts2⟩ | ⟨-, w6, r6, r7, r8, hm⟩⟩ := hm
      · exfalso
        have hin : (["git".toList, "cherry-pick".toList, "-Xtheirs".toList, h],
            (sys.exec w5 repoPath [] "git".toList
              ["cherry-pick".toList, "-Xtheirs".toList, h]).1) ∈ execs acts2 := by
          rw [hacts2]
          simp [execs, evGit]
        have := hcp _ (hexecs _ hin) rfl
        rw [herr] at this
        exact Bool.noConfusion this
      · rcases hm with ⟨_, e, -, -, -, hacts2⟩ | ⟨_, e, -, -, -, hacts2⟩ |
          ⟨hout, hafter, hacts2⟩
        · exfalso
          refine Bool.noConfusion (hfatal (.fatal e) (hmemacts _ ?_))
          rw [hacts2]
          simp
        · exfalso
          refine Bool.noConfusion (hfatal (.fatal e) (hmemacts _ ?_))
          rw [hacts2]
          simp
        · refine ⟨hout, h, rfl, ?_, hafter, a1, ?_, hfoa1.2⟩
          · unfold ledgerContent
            rw [hafter]
            rfl
          · rw [← fileOps_actions, hacts, hrest, ha2, hacts2, fileOps_append,
              fileOps_syncActions, fileOps_append, fileOps_append, fileOps_skips, hfoa1.1]
            rfl

/-- An instance of C5: three untransferred identifiers, and the first cycle
returns. -/
theorem one_entry_per_cycle_witness :
    2 ≤ ((backlog (syncAndLog demoSys demoRepo demoWork demoStaging demoState).1).filter
      (fun h => !stringsContains (ledgerContent demoState.files demoStaging) h)).length ∧
    (transferCommit demoSys demoRepo demoWork demoStaging demoState).1 = .returned :=
  ⟨by decide,
    (one_entry_per_cycle demoSys demoRepo demoWork demoStaging demoState
      (transferCommit demoSys demoRepo demoWork demoStaging demoState).2.trace rfl
      (by decide) (by decide) (by decide) (by decide)).1⟩

/-- C6: when the backlog is non-empty and every identifier of it is contained in
the ledger content the cycle reads, `transferCommit` returns normally, leaves
the ledger file as it was (its only file operation is reading it), prints one
skip report per backlog identifier, in backlog order, and nothing else, and runs
exactly the fetch, the checkout of the work branch and the log: no cherry-pick,
amend or push, and no checkout of the staging branch when the two branches
differ. -/
theorem all_ledgered_is_noop {σ : Type} (sys : Sys σ) (repoPath workBranch stagingBranch : Str)
    (s : State σ) (c : Str)
    (hback : (stringsSplit '\n'
      (syncAndLog sys repoPath workBranch stagingBranch s).1).head? ≠ some [])
    (hload : (loadLedger sys stagingBranch
      (syncAndLog sys repoPath workBranch stagingBranch s).2).1 = some c)
    (hall : ∀ h ∈ backlog (syncAndLog sys repoPath workBranch stagingBranch s).1,
      stringsContains c h = true) :
    (transferCommit sys repoPath workBranch stagingBranch s).1 = .returned ∧
    (transferCommit sys repoPath workBranch stagingBranch s).2.files (ledgerPath stagingBranch)
      = s.files (ledgerPath stagingBranch) ∧
    ∃ evs, (transferCommit sys repoPath workBranch stagingBranch s).2.trace = s.trace ++ evs ∧
      printed evs
        = (backlog (syncAndLog sys repoPath workBranch stagingBranch s).1).map skipLine ∧
      fileOps evs = [.readFile (ledgerPath stagingBranch)] ∧
      commands evs = syncCommands workBranch stagingBranch ∧
      (∀ c ∈ commands evs,
        isCherryPick c = false ∧ isAmend c = false ∧ isPush c = false) ∧
      (workBranch ≠ stagingBranch →
        ["git".toList, "checkout".toList, stagingBranch] ∉ commands evs) := by
  simp only [backlog, reverseInPlace_eq_reverse] at hall ⊢
  obtain ⟨evs, r1, r2, r3, a1, acts2, ht, hacts, ha1, hm⟩ :=
    cycle_loaded sys repoPath workBranch stagingBranch s c hback hload
  rw [List.dropWhile_eq_nil_iff.mpr hall] at hm
  rw [List.takeWhile_eq_self_iff.mpr hall] at hacts
  obtain ⟨hout, hfile, hacts2⟩ := hm
  have hfirst : ∃ h, h ∈ (stringsSplit '\n'
      (syncAndLog sys repoPath workBranch stagingBranch s).1).reverse ∧ h ≠ [] := by
    cases hs : stringsSplit '\n' (syncAndLog sys repoPath workBranch stagingBranch s).1 with
    | nil => exact absurd hs (stringsSplit_ne_nil _ _)
    | cons first others =>
      refine ⟨first, by simp, ?_⟩
      intro h0
      rw [hs, h0] at hback
      exact hback rfl
  have ha1r : s.files (ledgerPath stagingBranch) = some c ∧
      a1 = [.readFile (ledgerPath stagingBranch)] := by
    rcases ha1 with h | ⟨-, hc, -⟩
    · exact h
    · obtain ⟨h, hmem, hne⟩ := hfirst
      have := hall h hmem
      rw [hc, stringsContains_nil] at this
      exact absurd this hne
  rw [ha1r.2, hacts2, List.append_nil] at hacts
  have hc : commands evs = syncCommands workBranch stagingBranch := by
    rw [← commands_actions, hacts, commands_append, commands_syncActions, commands_append,
      commands_skips]
    rfl
  refine ⟨hout, by rw [hfile, ha1r.1], evs, ht, ?_, ?_, hc, ?_, ?_⟩
  · rw [← printed_actions, hacts, printed_append, printed_syncActions, printed_append,
      printed_skips]
    rfl
  · rw [← fileOps_actions, hacts, fileOps_append, fileOps_syncActions, fileOps_append,
      fileOps_skips]
    rfl
  · rw [hc]
    exact syncCommands_not_apply workBranch stagingBranch
  · intro hne
    rw [hc]
    exact syncCommands_no_staging workBranch stagingBranch hne

/-- An instance of C6: the ledger holds all three identifiers of the backlog and
the cycle returns without touching it. -/
theorem all_ledgered_is_noop_witness :
    (∀ h ∈ backlog (syncAndLog demoSys demoRepo demoWork demoStaging ledgeredState).1,
      stringsContains "c1\nc2\nc3\n".toList h = true) ∧
    (transferCommit demoSys demoRepo demoWork demoStaging ledgeredState).1 = .returned ∧
    (transferCommit demoSys demoRepo demoWork demoStaging ledgeredState).2.files
        (ledgerPath demoStaging)
      = ledgeredState.files (ledgerPath demoStaging) :=
  ⟨by decide,
    (all_ledgered_is_noop demoSys _ _ _ ledgeredState "c1\nc2\nc3\n".toList
      (by decide) (by decide) (by decide)).1,
    (all_ledgered_is_noop demoSys _ _ _ ledgeredState "c1\nc2\nc3\n".toList
      (by decide) (by decide) (by decide)).2.1⟩

/-- C7: when the `git log` output is empty, splitting it yields the single empty
token, and `transferCommit` prints "No new commits to transfer." and returns
normally; it performs no file operation and leaves the ledger file as it was;
the commands it runs are exactly the fetch, the checkout of the work branch and
the log, so no cherry-pick, amend or push, and no checkout other than that of
the work branch (none of the staging branch when the two branches differ). -/
theorem empty_log_is_noop {σ : Type} (sys : Sys σ) (repoPath workBranch stagingBranch : Str)
    (s : State σ)
    (hlog : (syncAndLog sys repoPath workBranch stagingBranch s).1 = []) :
    stringsSplit '\n' (syncAndLog sys repoPath workBranch stagingBranch s).1 = [[]] ∧
    (transferCommit sys repoPath workBranch stagingBranch s).1 = .returned ∧
    (transferCommit sys repoPath workBranch stagingBranch s).2.files (ledgerPath stagingBranch)
      = s.files (ledgerPath stagingBranch) ∧
    ∃ evs, (transferCommit sys repoPath workBranch stagingBranch s).2.trace = s.trace ++ evs ∧
      printed evs = ["No new commits to transfer.\n".toList] ∧
      fileOps evs = [] ∧
      commands evs = syncCommands workBranch stagingBranch ∧
      (∀ c ∈ commands evs,
        isCherryPick c = false ∧ isAmend c = false ∧ isPush c = false) ∧
      (∀ c ∈ commands evs, isCheckout c = true →
        c = ["git".toList, "checkout".toList, workBranch]) ∧
      (workBranch ≠ stagingBranch →
        ["git".toList, "checkout".toList, stagingBranch] ∉ commands evs) := by
  obtain ⟨evs, ht, r1, r2, w3, rest, -, hacts, hcase⟩ :=
    transferCommit_spec sys repoPath workBranch stagingBranch s
  rw [hlog] at hcase ⊢
  have hsplit : stringsSplit '\n' ([] : Str) = [[]] := rfl
  rw [hsplit] at hcase ⊢
  rcases hcase with ⟨-, hout, hafter, hrest⟩ | ⟨hne, -⟩
  · rw [hrest] at hacts
    have hc : commands evs = syncCommands workBranch stagingBranch := by
      rw [← commands_actions, hacts, commands_append, commands_syncActions]
      exact List.append_nil _
    refine ⟨rfl, hout, hafter, evs, ht, ?_, ?_, hc, ?_, ?_, ?_⟩
    · rw [← printed_actions, hacts, printed_append, printed_syncActions]
      rfl
    · rw [← fileOps_actions, hacts, fileOps_append, fileOps_syncActions]
      rfl
    · rw [hc]
      exact syncCommands_not_apply workBranch stagingBranch
    · rw [hc]
      exact syncCommands_checkout workBranch stagingBranch
    · intro hne
      rw [hc]
      exact syncCommands_no_staging workBranch stagingBranch hne
  · exact absurd rfl hne

/-- An instance of C7: the log prints nothing and the cycle returns. -/
theorem empty_log_is_noop_witness :
    (syncAndLog emptyLogSys demoRepo demoWork demoStaging demoState).1 = [] ∧
    (transferCommit emptyLogSys demoRepo demoWork demoStaging demoState).1 = .returned :=
  ⟨by decide, (empty_log_is_noop emptyLogSys _ _ _ demoState (by decide)).2.1⟩

/-- C8, as amended: for delays with `-153722867 ≤ minDelay < maxDelay ≤ 153722868`
(so that `rand.Intn` does not panic and the nanosecond count fits in 64 bits),
whatever the generator draws, the sleep duration is a whole number `d` of
minutes with `minDelay ≤ d < maxDelay`. -/
theorem sleepDuration_in_range (minDelay maxDelay : Int) (raw : Nat)
    (hlo : -153722867 ≤ minDelay) (hlt : minDelay < maxDelay) (hhi : maxDelay ≤ 153722868) :
    ∃ d : Int, sleepDuration minDelay maxDelay raw = some (Minute * d) ∧
      minDelay ≤ d ∧ d < maxDelay := by
  have hn : wrap64 (maxDelay - minDelay) = maxDelay - minDelay :=
    wrap64_id _ (by omega) (by omega)
  have hpos : 0 < maxDelay - minDelay := by omega
  have h0 := Int.emod_nonneg (raw : Int) (ne_of_gt hpos)
  have h1 := Int.emod_lt_of_pos (raw : Int) hpos
  refine ⟨(raw : Int) % (maxDelay - minDelay) + minDelay, ?_, by omega, by omega⟩
  unfold sleepDuration randIntn
  rw [hn, if_neg (by omega)]
  simp only []
  rw [wrap64_id ((raw : Int) % (maxDelay - minDelay) + minDelay) (by omega) (by omega)]
  rw [wrap64_id _ (by unfold Minute; omega) (by unfold Minute; omega)]

/-- An instance of C8 as amended: the default delays 45 and 80. -/
theorem sleepDuration_in_range_witness :
    sleepDuration 45 80 1234 = some (Minute * 54) ∧
    ∃ d : Int, sleepDuration 45 80 1234 = some (Minute * d) ∧ 45 ≤ d ∧ d < 80 :=
  ⟨by decide, sleepDuration_in_range 45 80 1234 (by decide) (by decide) (by decide)⟩

/-- C8 fails as stated: with `minDelay = maxDelay = 45` `rand.Intn(0)` panics and
no duration is computed; with `minDelay = 153722868`, `maxDelay = 153722869` the
multiplication by `time.Minute` overflows 64 bits and the duration is negative,
not a number of minutes in the range. -/
theorem sleepDuration_out_of_range :
    sleepDuration 45 45 0 = none ∧
    sleepDuration 153722868 153722869 0 = some (-9223371993709551616) ∧
    ¬ ∃ d : Int, sleepDuration 153722868 153722869 0 = some (Minute * d) ∧
      153722868 ≤ d ∧ d < 153722869 := by
  refine ⟨by decide, by decide, ?_⟩
  rintro ⟨d, h, h1, h2⟩
  have hd : d = 153722868 := by omega
  subst hd
  exact absurd h (by decide)

/-- C9, as amended: when `transferCommit` returns normally (commit applied, all
entries skipped, or no backlog), the last `git checkout` command of the cycle is
the checkout of the work branch; and if that command succeeded, the local
checkout points at the work branch at the end of the cycle, for every reading
`head` of the world as "the branch the local checkout points at" under which a
successful `git checkout b` leaves it at `b` and `git log` does not move it.
Whether the command succeeded is not checked: `runCommand` only prints a
failure. -/
theorem last_checkout_is_work_branch {σ : Type} (sys : Sys σ)
    (repoPath workBranch stagingBranch : Str) (s : State σ)
    (hret : (transferCommit sys repoPath workBranch stagingBranch s).1 = .returned) :
    ∃ evs r, (transferCommit sys repoPath workBranch stagingBranch s).2.trace = s.trace ++ evs ∧
      ((commands evs).filter isCheckout).getLast?
        = some ["git".toList, "checkout".toList, workBranch] ∧
      lastCheckout evs = some (["git".toList, "checkout".toList, workBranch], r) ∧
      (r.err = none → ∀ head : σ → Str,
        (∀ w b, (sys.exec w repoPath [] "git".toList ["checkout".toList, b]).1.err = none →
          head (sys.exec w repoPath [] "git".toList ["checkout".toList, b]).2 = b) →
        (∀ w, head (sys.exec w repoPath [] "git".toList
          ["log".toList, "--pretty=format:%H".toList,
            stagingBranch ++ "..".toList ++ workBranch]).2 = head w) →
        head (transferCommit sys repoPath workBranch stagingBranch s).2.world = workBranch) := by
  obtain ⟨evs1, ht1, hcmd⟩ :=
    last_checkout_command sys repoPath workBranch stagingBranch s hret
  obtain ⟨w, evs, ht, hl, hw⟩ :=
    transferCommit_returned_world sys repoPath workBranch stagingBranch s hret
  have hevs : evs1 = evs := List.append_cancel_left (ht1.symm.trans ht)
  subst hevs
  refine ⟨evs1, _, ht, hcmd, hl, ?_⟩
  intro herr head hco hlog
  rcases hw with hw | hw
  · rw [hw]
    exact hco w workBranch herr
  · rw [hw, hlog]
    exact hco w workBranch herr

/-- An instance of C9 as amended: the first cycle of the demonstration world
returns normally and its last checkout is that of `feature`. -/
theorem last_checkout_is_work_branch_witness :
    (transferCommit demoSys demoRepo demoWork demoStaging demoState).1 = .returned ∧
    ∃ evs r, (transferCommit demoSys demoRepo demoWork demoStaging demoState).2.trace
        = demoState.trace ++ evs ∧
      ((commands evs).filter isCheckout).getLast?
        = some ["git".toList, "checkout".toList, demoWork] ∧
      lastCheckout evs = some (["git".toList, "checkout".toList, demoWork], r) ∧
      (r.err = none → ∀ head : Nat → Str,
        (∀ w b, (demoSys.exec w demoRepo [] "git".toList ["checkout".toList, b]).1.err
            = none →
          head (demoSys.exec w demoRepo [] "git".toList ["checkout".toList, b]).2 = b) →
        (∀ w, head (demoSys.exec w demoRepo [] "git".toList
          ["log".toList, "--pretty=format:%H".toList,
            demoStaging ++ "..".toList ++ demoWork]).2 = head w) →
        head (transferCommit demoSys demoRepo demoWork demoStaging demoState).2.world
          = demoWork) :=
  ⟨by decide,
    last_checkout_is_work_branch demoSys demoRepo demoWork demoStaging demoState (by decide)⟩

/-- C9 fails as stated: the cherry-pick of `c1` hits a modify/delete conflict
that git reports with "error" on standard error only, so the cycle goes on; the
closing `git checkout feature` fails on the unmerged index and `runCommand`
only prints that.  The cycle returns normally, its last checkout command is the
checkout of the work branch, and the local checkout points at `staging`. -/
theorem checkout_left_on_staging :
    (transferCommit unmergedSys demoRepo demoWork demoStaging unmergedState).1 = .returned ∧
    ((commands (transferCommit unmergedSys demoRepo demoWork demoStaging
        unmergedState).2.trace).filter isCheckout).getLast?
      = some ["git".toList, "checkout".toList, demoWork] ∧
    (lastCheckout (transferCommit unmergedSys demoRepo demoWork demoStaging
        unmergedState).2.trace).map (fun cr => cr.2.err)
      = some (some "exit status 1".toList) ∧
    (transferCommit unmergedSys demoRepo demoWork demoStaging unmergedState).2.world.head
      = demoStaging ∧
    demoStaging ≠ demoWork := by
  decide

/-- C10: the two-index swap loop of lines 53-55 leaves the slice equal to the
reverse of the sequence it started from: same length, and element `i` of the
result is element `len-1-i` of the input; `len` iterations are enough, and more
change nothing. -/
theorem reverseInPlace_reverses (a : List Str) :
    reverseInPlace a = a.reverse ∧
    (reverseInPlace a).length = a.length ∧
    (∀ i, (reverseInPlace a)[i]? = if i < a.length then a[a.length - 1 - i]? else none) ∧
    ∀ extra, reverseLoop (a.length + extra) a 0 (a.length - 1) = a.reverse := by
  refine ⟨reverseInPlace_eq_reverse a, ?_, ?_, ?_⟩
  · rw [reverseInPlace_eq_reverse, List.length_reverse]
  · intro i
    rw [reverseInPlace_eq_reverse]
    by_cases hi : i < a.length
    · rw [if_pos hi, List.getElem?_reverse hi]
    · rw [if_neg hi]
      exact List.getElem?_eq_none (by simpa using hi)
  · intro extra
    exact reverseLoop_eq_reverse _ a (by omega)

end GitStagingCron
